import Mathlib

/-!
Verification of the symbolic-circuit analysis core
(`src/scqubits/core/symbolic_circuit.py`).

The Python source is shallowly embedded below.  Circuit nodes are integer
ids (0 is the ground node), branches are two-terminal elements carrying a
type tag and parameter tokens, and the analysis pipeline (independent-mode
computation, transformation-matrix construction and classification,
spanning-tree/closure-branch detection, capacitance-matrix assembly) is
translated function by function.  Floating point linear algebra
(`numpy.linalg.matrix_rank`, `det`, `inv`) is idealised over `ℚ`; CPython's
iteration order over a `set` of small non-negative integers is idealised as
ascending order.
-/

namespace SymCirc

/-- Branch type tag: capacitor, inductor, Josephson junction,
doubled-frequency Josephson junction (`"C" | "L" | "JJ" | "JJ2"`). -/
inductive BranchType where
  | C : BranchType
  | L : BranchType
  | JJ : BranchType
  | JJ2 : BranchType
deriving DecidableEq, Repr

/-- A branch parameter value: either a bound number or a reference to a
named symbolic parameter (`Union[float, Symbol]` in the source; symbols are
identified by an index into the circuit's parameter list). -/
inductive PVal where
  | num : ℚ → PVal
  | sym : ℕ → PVal
deriving DecidableEq, Repr

/-- A circuit branch (`class Branch`): an ordered pair of node ids
(`0` is the ground node), a type tag and its parameter values.
`bid` models Python object identity: distinct `Branch` objects with equal
data are distinct list elements in the source. -/
structure Branch where
  bid : ℕ
  btype : BranchType
  n0 : ℕ
  n1 : ℕ
  params : List PVal
deriving DecidableEq, Repr

/-- `Branch.node_ids`. -/
def Branch.node_ids (b : Branch) : ℕ × ℕ := (b.n0, b.n1)

/-- The set of distinct endpoint node ids of two branches,
`set(self.nodes + branch.nodes)` in `Branch.is_connected`. -/
def endpointUnion (b₁ b₂ : Branch) : Finset ℕ :=
  {b₁.n0, b₁.n1, b₂.n0, b₂.n1}

/-- `Branch.is_connected`: true iff the union of the two branches' endpoint
node sets has fewer than four distinct elements. -/
def Branch.is_connected (b₁ b₂ : Branch) : Bool :=
  decide ((endpointUnion b₁ b₂).card < 4)

/-- Two branches share at least one endpoint node. -/
def sharesNode (b₁ b₂ : Branch) : Prop :=
  b₁.n0 = b₂.n0 ∨ b₁.n0 = b₂.n1 ∨ b₁.n1 = b₂.n0 ∨ b₁.n1 = b₂.n1

instance (b₁ b₂ : Branch) : Decidable (sharesNode b₁ b₂) := by
  unfold sharesNode; infer_instance

lemma card_triple_le (x y z : ℕ) : ({x, y, z} : Finset ℕ).card ≤ 3 := by
  refine le_trans (Finset.card_insert_le _ _) ?_
  refine Nat.succ_le_succ ?_
  refine le_trans (Finset.card_insert_le _ _) ?_
  simp

lemma card_endpoints_lt_of_share (a b c d : ℕ)
    (h : a = c ∨ a = d ∨ b = c ∨ b = d) :
    ({a, b, c, d} : Finset ℕ).card < 4 := by
  rcases h with h | h | h | h <;> subst h
  · have he : ({a, b, a, d} : Finset ℕ) = {a, b, d} := by
      ext x; simp <;> tauto
    rw [he]; exact lt_of_le_of_lt (card_triple_le a b d) (by omega)
  · have he : ({a, b, c, a} : Finset ℕ) = {a, b, c} := by
      ext x; simp <;> tauto
    rw [he]; exact lt_of_le_of_lt (card_triple_le a b c) (by omega)
  · have he : ({a, b, b, d} : Finset ℕ) = {a, b, d} := by
      ext x; simp <;> tauto
    rw [he]; exact lt_of_le_of_lt (card_triple_le a b d) (by omega)
  · have he : ({a, b, c, b} : Finset ℕ) = {a, b, c} := by
      ext x; simp <;> tauto
    rw [he]; exact lt_of_le_of_lt (card_triple_le a b c) (by omega)

lemma sharesNode_is_connected (b₁ b₂ : Branch) (h : sharesNode b₁ b₂) :
    b₁.is_connected b₂ = true := by
  unfold Branch.is_connected endpointUnion
  rw [decide_eq_true_iff]
  exact card_endpoints_lt_of_share _ _ _ _ h

lemma is_connected_of_not_shorted (b₁ b₂ : Branch)
    (h₁ : b₁.n0 ≠ b₁.n1) (h₂ : b₂.n0 ≠ b₂.n1)
    (hc : b₁.is_connected b₂ = true) : sharesNode b₁ b₂ := by
  unfold Branch.is_connected endpointUnion at hc
  rw [decide_eq_true_iff] at hc
  by_contra hs
  unfold sharesNode at hs
  push_neg at hs
  obtain ⟨ha, hb, hcn, hd⟩ := hs
  have : ({b₁.n0, b₁.n1, b₂.n0, b₂.n1} : Finset ℕ).card = 4 := by
    rw [Finset.card_insert_of_not_mem (by simp [h₁, ha, hb]),
        Finset.card_insert_of_not_mem (by simp [hcn, hd]),
        Finset.card_insert_of_not_mem (by simp [h₂])]
    simp
  omega

/-! ## Rational vectors and matrix rank

`numpy` arrays are embedded as lists of rationals; `numpy.linalg.matrix_rank`
is idealised as the exact rank over `ℚ`, computed by Gaussian elimination. -/

/-- Kernel-computable addition on `ℚ` (the field instances do not reduce
inside the kernel; these wrappers do, and are proved equal to them). -/
def qadd (a b : ℚ) : ℚ :=
  Rat.divInt (a.num * (b.den : ℤ) + b.num * (a.den : ℤ)) ((a.den : ℤ) * (b.den : ℤ))

/-- Kernel-computable subtraction on `ℚ`. -/
def qsub (a b : ℚ) : ℚ :=
  Rat.divInt (a.num * (b.den : ℤ) - b.num * (a.den : ℤ)) ((a.den : ℤ) * (b.den : ℤ))

/-- Kernel-computable multiplication on `ℚ`. -/
def qmul (a b : ℚ) : ℚ :=
  Rat.divInt (a.num * b.num) ((a.den : ℤ) * (b.den : ℤ))

/-- Kernel-computable division on `ℚ` (division by zero gives zero). -/
def qdiv (a b : ℚ) : ℚ :=
  Rat.divInt (a.num * (b.den : ℤ)) ((a.den : ℤ) * b.num)

/-- Kernel-computable negation on `ℚ`. -/
def qneg (a : ℚ) : ℚ := Rat.divInt (-a.num) (a.den : ℤ)

lemma qden_ne (a : ℚ) : ((a.den : ℚ)) ≠ 0 :=
  Nat.cast_ne_zero.mpr a.den_nz

lemma qmul_den (a : ℚ) : a * (a.den : ℚ) = (a.num : ℚ) :=
  ((div_eq_iff (qden_ne a)).mp (Rat.num_div_den a)).symm

theorem qadd_eq (a b : ℚ) : qadd a b = a + b := by
  unfold qadd
  rw [Rat.divInt_eq_div]
  push_cast
  rw [div_eq_iff (mul_ne_zero (qden_ne a) (qden_ne b))]
  linear_combination (-(b.den : ℚ)) * qmul_den a - (a.den : ℚ) * qmul_den b

theorem qsub_eq (a b : ℚ) : qsub a b = a - b := by
  unfold qsub
  rw [Rat.divInt_eq_div]
  push_cast
  rw [div_eq_iff (mul_ne_zero (qden_ne a) (qden_ne b))]
  linear_combination (-(b.den : ℚ)) * qmul_den a + (a.den : ℚ) * qmul_den b

theorem qmul_eq (a b : ℚ) : qmul a b = a * b := by
  unfold qmul
  rw [Rat.divInt_eq_div]
  push_cast
  rw [div_eq_iff (mul_ne_zero (qden_ne a) (qden_ne b))]
  linear_combination (-(b.num : ℚ)) * qmul_den a - (a * (a.den : ℚ)) * qmul_den b

theorem qdiv_eq (a b : ℚ) : qdiv a b = a / b := by
  unfold qdiv
  rw [Rat.divInt_eq_div]
  push_cast
  by_cases hb : b = 0
  · simp [hb]
  · have hbn : ((b.num : ℚ)) ≠ 0 := by
      exact_mod_cast Rat.num_ne_zero.mpr hb
    rw [div_eq_div_iff (mul_ne_zero (qden_ne a) hbn) hb]
    linear_combination (-((b.den : ℚ) * b)) * qmul_den a + (a * (a.den : ℚ)) * qmul_den b

theorem qneg_eq (a : ℚ) : qneg a = -a := by
  unfold qneg
  rw [Rat.divInt_eq_div]
  push_cast
  rw [neg_div, Rat.num_div_den]

/-- A numeric vector (one coefficient per node). -/
abbrev Vec := List ℚ

/-- Index of the first nonzero entry of a vector, if any. -/
def pivot? (v : Vec) : Option ℕ := v.findIdx? (fun x => decide (x ≠ 0))

/-- `v[p]`, with `0` out of range. -/
def entryAt (v : Vec) (p : ℕ) : ℚ := v.getD p 0

/-- Subtract the multiple of `v` from `w` that clears `w`'s entry at the
pivot position `p` of `v` (one Gaussian elimination step). -/
def rowEliminate (v : Vec) (p : ℕ) (w : Vec) : Vec :=
  List.zipWith (fun wi vi => qsub wi (qmul (qdiv (entryAt w p) (entryAt v p)) vi)) w v

/-- Gaussian elimination with explicit fuel (the fuel is an upper bound on
the number of rows; structural recursion keeps the definition computable by
the kernel). -/
def rankAux : ℕ → List Vec → ℕ
  | 0, _ => 0
  | _ + 1, [] => 0
  | k + 1, v :: rest =>
    match pivot? v with
    | none => rankAux k rest
    | some p => rankAux k (rest.map (rowEliminate v p)) + 1

/-- Exact rank of a list of row vectors (`np.linalg.matrix_rank` idealised
over `ℚ`): eliminate on the first nonzero entry of the head row and recurse. -/
def matrix_rank (rows : List Vec) : ℕ := rankAux rows.length rows

/-- Interpret a `Vec` as an element of `Fin n → ℚ` (missing entries are 0). -/
def toFun (n : ℕ) (v : Vec) : Fin n → ℚ := fun i => v.getD i 0

/-- Square `n × n` matrix whose rows are the first `n` listed vectors. -/
def listToMatrix (n : ℕ) (rows : List Vec) : Matrix (Fin n) (Fin n) ℚ :=
  Matrix.of fun i j => (rows.getD i []).getD j 0

/-- `np.linalg.det`, idealised as the exact determinant over `ℚ` of the
row-listed square matrix: Laplace expansion along the first row (proved
below to agree with `Matrix.det`). -/
def detQ : ℕ → List Vec → ℚ
  | 0, _ => 1
  | n + 1, rows =>
    let first := rows.headD []
    (List.range (n + 1)).foldl (fun acc j =>
      let cof := qmul (first.getD j 0) (detQ n ((rows.drop 1).map (fun r => r.eraseIdx j)))
      if j % 2 = 0 then qadd acc cof else qsub acc cof) 0

instance {ε α : Type} [DecidableEq ε] [DecidableEq α] : DecidableEq (Except ε α)
  | .error e, .error f => decidable_of_iff (e = f) (by simp)
  | .error _, .ok _ => isFalse (by simp)
  | .ok _, .error _ => isFalse (by simp)
  | .ok a, .ok b => decidable_of_iff (a = b) (by simp)

/-- `ndarray.transpose()` for a row-listed matrix with `n` columns. -/
def transposeL (n : ℕ) (rows : List Vec) : List Vec :=
  (List.range n).map (fun j => rows.map (fun r => r.getD j 0))

/-! ## The circuit and `_independent_modes` -/

/-- The basis-completion strategy (`self.basis_completion`). -/
inductive BasisCompletion where
  | simple : BasisCompletion
  | standard : BasisCompletion
deriving DecidableEq, Repr

/-- A circuit: the non-ground nodes are `1, …, numNodes` (`self.nodes`);
`isGrounded` records whether a ground node (id 0) is present. -/
structure Circuit where
  numNodes : ℕ
  branches : List Branch
  isGrounded : Bool
  basisCompletion : BasisCompletion := .simple
deriving DecidableEq, Repr

/-- `self.nodes` with the ground node appended when present
(`nodes_copy` in `_independent_modes`), as node ids. -/
def nodesCopy (c : Circuit) : List ℕ :=
  (List.range' 1 c.numNodes) ++ (if c.isGrounded then [0] else [])

/-- All endpoint node ids of a list of branches. -/
def branchNodes (bs : List Branch) : List ℕ :=
  bs.flatMap (fun b => [b.n0, b.n1])

/-- `are_branchsets_disconnected`: the two branch lists have no endpoint
node id in common (`np.intersect1d(...).size == 0`). -/
def are_branchsets_disconnected (l₁ l₂ : List Branch) : Bool :=
  decide (∀ x ∈ branchNodes l₁, x ∉ branchNodes l₂)

/-- One pass of `for b1 in branch_subset_copy: …` with CPython's
iterator-under-mutation semantics: the cursor stays in place when the
current element is removed (`branch_subset_copy.remove(b1)`), and moves on
otherwise.  Returns the remaining pool and the grown subgraph. -/
def forPass : ℕ → ℕ → List Branch → List Branch → List Branch × List Branch
  | 0, _, rem, sub => (rem, sub)
  | fuel + 1, i, rem, sub =>
    match rem[i]? with
    | none => (rem, sub)
    | some b₁ =>
      if sub.any (fun b₂ => b₁.is_connected b₂) then
        forPass fuel i (rem.eraseIdx i) (sub ++ [b₁])
      else
        forPass fuel (i + 1) rem sub

/-- `while not self.are_branchsets_disconnected(max_connected_subgraph,
branch_subset_copy): …` — repeat `forPass` until the subgraph is
node-disjoint from the pool. -/
def componentLoop : ℕ → List Branch → List Branch → List Branch × List Branch
  | 0, rem, sub => (sub, rem)
  | fuel + 1, rem, sub =>
    if are_branchsets_disconnected sub rem then (sub, rem)
    else
      let (rem', sub') := forPass (2 * rem.length + 1) 0 rem sub
      componentLoop fuel rem' sub'

/-- `while len(branch_subset_copy) > 0: b_0 = …pop(0); …` — the list of
maximal connected subgraphs, in discovery order. -/
def maxConnectedSubgraphs : ℕ → List Branch → List (List Branch)
  | 0, _ => []
  | _ + 1, [] => []
  | fuel + 1, b₀ :: rest =>
    let (sub, rem) := componentLoop (rest.length + 1) rest [b₀]
    sub :: maxConnectedSubgraphs fuel rem

/-- The marker given to node `x` by the marking loop over
`nodes_in_max_connected_branchsets`: `-1` if the (last) subgraph containing
`x` touches ground, the 1-based subgraph index otherwise, `0` if `x` is in
no subgraph. -/
def nodeMarker (comps : List (List Branch)) (x : ℕ) : ℤ :=
  match ((comps.enum.filter (fun p => decide (x ∈ branchNodes p.2))).getLast?) with
  | none => 0
  | some (idx, sub) => if 0 ∈ branchNodes sub then -1 else (idx : ℤ) + 1

/-- The distinct markers occurring in `indices`, ascending (CPython's
`list(set(...))` over small integers, idealised as ascending iteration). -/
def uniqueMarkers (indices : List ℤ) : List ℤ :=
  (indices.dedup).insertionSort (· ≤ ·)

/-- `_independent_modes`: vectors spanning the flux assignments that are
constant across every branch of `branch_subset`.  One vector per ungrounded
connected subgraph (entry `on` on the subgraph, `off` elsewhere), plus —
when `single_nodes` — an accepted-by-rank elementary vector per untouched
node; the ground coordinate is dropped at the end if the circuit is
grounded. -/
def independent_modes (c : Circuit) (branch_subset : List Branch)
    (single_nodes : Bool) (onv offv : ℚ) : List Vec :=
  let nodes := nodesCopy c
  let comps := maxConnectedSubgraphs (branch_subset.length + 1) branch_subset
  let indices : List ℤ := nodes.map (nodeMarker comps)
  let markers := (uniqueMarkers indices).filter (fun m => decide (m ≠ -1))
  let basis₀ : List Vec :=
    markers.map (fun m => indices.map (fun i => if i = m then onv else offv))
  let basis :=
    if single_nodes then
      if 0 < indices.count 0 then
        let ref : Vec := indices.map (fun i => if i = 0 then onv else offv)
        let positions := (ref.enum.filter (fun p => decide (p.2 = onv))).map (fun p => p.1)
        let modes : List Vec := positions.map (fun pos =>
          (List.range indices.length).map (fun x => if x = pos then onv else offv))
        modes.foldl (fun acc mode =>
          if matrix_rank (acc ++ [mode]) = (acc ++ [mode]).length
          then acc ++ [mode] else acc) basis₀
      else basis₀
    else basis₀
  if c.isGrounded then basis.map (fun v => v.dropLast) else basis

/-! ## Transformation matrix construction and classification -/

/-- Variable classification (`var_categories`): category name → ordered
1-based new-variable indices. -/
structure VarCategories where
  periodic : List ℕ := []
  extended : List ℕ := []
  cyclic : List ℕ := []
  frozen : List ℕ := []
  osc : List ℕ := []
deriving DecidableEq, Repr

/-- The five mode-type names, in the order the source compares them. -/
inductive ModeType where
  | periodic | extended | cyclic | frozen | osc
deriving DecidableEq, Repr

def VarCategories.ofType (v : VarCategories) : ModeType → List ℕ
  | .periodic => v.periodic
  | .extended => v.extended
  | .cyclic => v.cyclic
  | .frozen => v.frozen
  | .osc => v.osc

/-- The all-ones `Σ` mode over the non-ground nodes. -/
def sumMode (c : Circuit) : Vec := List.replicate c.numNodes 1

/-- `periodic_modes`: flux constant across every inductive branch. -/
def periodicModes (c : Circuit) : List Vec :=
  independent_modes c (c.branches.filter (fun b => b.btype = .L)) true 1 0

/-- `frozen_modes`: flux constant across every non-inductive branch
(single-node vectors included). -/
def frozenModes (c : Circuit) : List Vec :=
  independent_modes c (c.branches.filter (fun b => b.btype ≠ .L)) true 1 0

/-- `cyclic_modes`: flux constant across every non-capacitive branch. -/
def cyclicModes (c : Circuit) : List Vec :=
  independent_modes c (c.branches.filter (fun b => b.btype ≠ .C)) true 1 0

/-- Fold the `Σ` mode into the frozen set for an ungrounded circuit
(`variable_transformation_matrix`, rank-based test): append it, or replace
the first frozen vector when appending would not increase the rank. -/
def foldSumMode (c : Circuit) (frozen : List Vec) : List Vec :=
  if c.isGrounded then frozen
  else
    if matrix_rank (frozen ++ [sumMode c]) < frozen.length + 1 then
      frozen.drop 1 ++ [sumMode c]
    else frozen ++ [sumMode c]

/-- Greedy merge: accept a candidate mode only if it strictly increases the
rank of the accepted list (`matrix_rank(mat) == len(mat)`). -/
def greedyMerge (start : List Vec) (cands : List Vec) : List Vec :=
  cands.foldl (fun acc m =>
    if matrix_rank (acc ++ [m]) = (acc ++ [m]).length then acc ++ [m] else acc)
    start

/-- All arrangements of a list, in `itertools.permutations` order
(lexicographic in the picked index sequence). -/
def allPermsLex : ℕ → List ℚ → List (List ℚ)
  | 0, _ => [[]]
  | _ + 1, [] => [[]]
  | fuel + 1, l =>
    (List.range l.length).flatMap (fun i =>
      (allPermsLex fuel (l.eraseIdx i)).map (fun t => l.getD i 0 :: t))

/-- The near-uniform reference vector for basis completion (`vector_ref`):
`n − 2` ones then two zeros (one one, one zero when `n ≤ 2`). -/
def vectorRef (n : ℕ) : Vec :=
  if n > 2 then List.replicate (n - 2) 1 ++ List.replicate 2 0
  else List.replicate (n - 1) 1 ++ List.replicate (n - (n - 1)) 0

/-- The `while np.linalg.matrix_rank(standard_basis) < node_count` loop:
consume candidate permutations, keeping those that increase the rank, until
the accumulated basis has full rank.  Exhausting the candidates with the
rank still deficient is the `IndexError` of the source, modelled as `none`. -/
def stdLoop (n : ℕ) : List Vec → List Vec → Option (List Vec)
  | [], std => if matrix_rank std < n then none else some std
  | a :: rest, std =>
    if matrix_rank std < n then
      if matrix_rank (std ++ [a]) = (std ++ [a]).length then
        stdLoop n rest (std ++ [a])
      else stdLoop n rest std
    else some std

/-- `np.identity(n)` as a row list. -/
def identityRows (n : ℕ) : List Vec :=
  (List.range n).map (fun i => (List.range n).map (fun j => if i = j then (1 : ℚ) else 0))

/-- The result of `variable_transformation_matrix`: the selected new-basis
rows (the columns of the returned matrix), the returned matrix itself, and
the `var_categories` dictionary. -/
structure TransformResult where
  newBasisRows : List Vec
  matrixRows : List Vec
  categories : VarCategories
  sumPos : List ℕ
deriving DecidableEq, Repr

/-- The LC (oscillator) mode set of `variable_transformation_matrix`
(signed entries `on = −1`, `off = 1`). -/
def lcModesVTM (c : Circuit) : List Vec :=
  independent_modes c (c.branches.filter (fun b => b.btype = .JJ)) false (-1) 1

/-- The frozen mode set after the `Σ`-mode fold. -/
def vtmFrozen (c : Circuit) : List Vec := foldSumMode c (frozenModes c)

/-- The merged mode list (frozen, cyclic, periodic, LC priority order). -/
def vtmMerged (c : Circuit) : List Vec :=
  greedyMerge [] (vtmFrozen c ++ cyclicModes c ++ periodicModes c ++ lcModesVTM c)

/-- The completed new basis: greedy extension of the merged modes by the
completion basis (near-uniform permutations or the identity).  `none`
models the `IndexError` when the permutation candidates run out. -/
def vtmNewBasis (c : Circuit) : Option (List Vec) :=
  let n := c.numNodes
  match stdLoop n (allPermsLex n (vectorRef n)) [List.replicate n 1] with
  | none => none
  | some simple_basis =>
    let standard_basis :=
      if c.basisCompletion = .standard then identityRows n else simple_basis
    some (greedyMerge (vtmMerged c) standard_basis)

/-- `pos_Σ`: positions of the `Σ` mode in the completed basis (ungrounded
circuits only). -/
def vtmPosSum (c : Circuit) (nb : List Vec) : List ℕ :=
  if ¬c.isGrounded then
    (List.range nb.length).filter (fun i => decide (nb.getD i [] = sumMode c))
  else []

/-- `pos_cyclic`. -/
def vtmPosCyclic (c : Circuit) (nb : List Vec) : List ℕ :=
  (List.range nb.length).filter (fun i =>
    decide (i ∉ vtmPosSum c nb) && decide (nb.getD i [] ∈ cyclicModes c))

/-- `pos_periodic`. -/
def vtmPosPeriodic (c : Circuit) (nb : List Vec) : List ℕ :=
  (List.range nb.length).filter (fun i =>
    decide (i ∉ vtmPosSum c nb) && decide (i ∉ vtmPosCyclic c nb) &&
    decide (nb.getD i [] ∈ periodicModes c))

/-- `pos_frozen`. -/
def vtmPosFrozen (c : Circuit) (nb : List Vec) : List ℕ :=
  (List.range nb.length).filter (fun i =>
    decide (i ∉ vtmPosSum c nb) && decide (i ∉ vtmPosCyclic c nb) &&
    decide (i ∉ vtmPosPeriodic c nb) && decide (nb.getD i [] ∈ vtmFrozen c))

/-- `pos_osc` (note: not excluded from `pos_rest` in the source). -/
def vtmPosOsc (c : Circuit) (nb : List Vec) : List ℕ :=
  (List.range nb.length).filter (fun i =>
    decide (i ∉ vtmPosSum c nb) && decide (i ∉ vtmPosCyclic c nb) &&
    decide (i ∉ vtmPosPeriodic c nb) && decide (i ∉ vtmPosFrozen c nb) &&
    decide (nb.getD i [] ∈ lcModesVTM c))

/-- `pos_rest`: everything not `Σ`/cyclic/periodic/frozen. -/
def vtmPosRest (c : Circuit) (nb : List Vec) : List ℕ :=
  (List.range nb.length).filter (fun i =>
    decide (i ∉ vtmPosSum c nb) && decide (i ∉ vtmPosCyclic c nb) &&
    decide (i ∉ vtmPosPeriodic c nb) && decide (i ∉ vtmPosFrozen c nb))

/-- `pos_list`: periodic, rest, cyclic, frozen blocks, `Σ` last. -/
def vtmPosList (c : Circuit) (nb : List Vec) : List ℕ :=
  vtmPosPeriodic c nb ++ vtmPosRest c nb ++ vtmPosCyclic c nb ++
    vtmPosFrozen c nb ++ vtmPosSum c nb

/-- `[i + 1 for i in range(len(pos_list)) if pos_list[i] in poss]`. -/
def catPositions (pos_list : List ℕ) (poss : List ℕ) : List ℕ :=
  ((List.range pos_list.length).filter
    (fun i => decide (pos_list.getD i 0 ∈ poss))).map (· + 1)

/-- `variable_transformation_matrix`: build periodic/frozen/cyclic/LC mode
sets, fold in `Σ`, greedily merge, complete to a full basis (simple or
standard strategy), reorder into category blocks and classify.  `none`
models the `IndexError` when the permutation candidates run out.  The extra
`sumPos` field records the final positions of the `Σ` mode (needed only to
state theorems; the source keeps no such record). -/
def variable_transformation_matrix (c : Circuit) : Option TransformResult :=
  (vtmNewBasis c).map (fun new_basis =>
    let pos_list := vtmPosList c new_basis
    let rows := pos_list.map (fun i => new_basis.getD i [])
    { newBasisRows := rows
      matrixRows := transposeL c.numNodes rows
      sumPos := catPositions pos_list (vtmPosSum c new_basis)
      categories :=
        { periodic := catPositions pos_list (vtmPosPeriodic c new_basis)
          extended := catPositions pos_list (vtmPosRest c new_basis)
          cyclic := catPositions pos_list (vtmPosCyclic c new_basis)
          frozen := catPositions pos_list (vtmPosFrozen c new_basis)
          osc := catPositions pos_list (vtmPosOsc c new_basis) } })

/-- `_mode_in_subspace`: `False` on an empty subspace, otherwise test that
stacking the mode onto the subspace's vectors leaves the rank at the number
of subspace vectors. -/
def mode_in_subspace (mode : Vec) (subspace : List Vec) : Bool :=
  if subspace.length = 0 then false
  else decide (matrix_rank (subspace ++ [mode]) = subspace.length)

/-- The classification loop shared by the circuit-generated and the
user-given modes in `check_transformation_matrix`: skip a `Σ`-spanning mode
when ungrounded; otherwise classify as frozen, cyclic or periodic (with
`continue`), and else append to `osc` on LC membership and — the source has
no `continue` there — to `extended` unconditionally. -/
def classifyLoop (c : Circuit) (sumv : Vec)
    (frozen cyclic periodic LC : List Vec) (ms : List Vec) : VarCategories :=
  ms.enum.foldl (fun acc p =>
    let x := p.1
    let mode := p.2
    if mode_in_subspace sumv [mode] ∧ ¬c.isGrounded then acc
    else if mode_in_subspace mode frozen then
      { acc with frozen := acc.frozen ++ [x + 1] }
    else if mode_in_subspace mode cyclic then
      { acc with cyclic := acc.cyclic ++ [x + 1] }
    else if mode_in_subspace mode periodic then
      { acc with periodic := acc.periodic ++ [x + 1] }
    else
      let acc' := if mode_in_subspace mode LC then
          { acc with osc := acc.osc ++ [x + 1] } else acc
      { acc' with extended := acc'.extended ++ [x + 1] }) {}

/-- The LC (oscillator) mode set of `check_transformation_matrix`
(default entries `on = 1`, `off = 0`, `single_nodes=False`). -/
def lcModesCheck (c : Circuit) : List Vec :=
  independent_modes c (c.branches.filter (fun b => b.btype = .JJ)) false 1 0

/-- The `Σ`-folded frozen mode set of `check_transformation_matrix`
(subspace-membership based, unlike the rank test of
`variable_transformation_matrix`). -/
def checkFrozen (c : Circuit) : List Vec :=
  let frozen_modes₀ := frozenModes c
  let sumv : Vec := List.replicate c.numNodes 1
  if ¬c.isGrounded then
    if mode_in_subspace sumv frozen_modes₀ then
      frozen_modes₀.drop 1 ++ [sumv]
    else frozen_modes₀ ++ [sumv]
  else frozen_modes₀

/-- The merged mode list of `check_transformation_matrix` (membership-based
merge, then the second pass over the LC modes). -/
def checkModes (c : Circuit) : List Vec :=
  let modes₀ := (checkFrozen c ++ cyclicModes c ++ periodicModes c ++
      lcModesCheck c).foldl
    (fun acc m => if ¬ mode_in_subspace m acc then acc ++ [m] else acc) []
  (lcModesCheck c).foldl
    (fun acc m => if ¬ mode_in_subspace m acc then acc ++ [m] else acc) modes₀

/-- `var_categories_circuit`: the automatic classification of the circuit's
own merged modes. -/
def circuitVarCategories (c : Circuit) : VarCategories :=
  classifyLoop c (List.replicate c.numNodes 1) (checkFrozen c) (cyclicModes c)
    (periodicModes c) (lcModesCheck c) (checkModes c)

/-- `var_categories_user`: the classification of the supplied matrix's
columns (`transformation_matrix.transpose()`). -/
def userVarCategories (c : Circuit) (M : List Vec) : VarCategories :=
  classifyLoop c (List.replicate c.numNodes 1) (checkFrozen c) (cyclicModes c)
    (periodicModes c) (lcModesCheck c) (transposeL c.numNodes M)

/-- The warning loop of `check_transformation_matrix`: one warning per mode
type whose automatic count strictly exceeds the supplied count
(`num_extra_modes > 0`). -/
def checkWarnings (c : Circuit) (M : List Vec) : List (ModeType × ℤ) :=
  ([ModeType.periodic, .extended, .cyclic, .frozen, .osc]).filterMap (fun t =>
    if 0 < (((circuitVarCategories c).ofType t).length : ℤ) -
        ((userVarCategories c M).ofType t).length then
      some (t, (((circuitVarCategories c).ofType t).length : ℤ) -
        ((userVarCategories c M).ofType t).length)
    else none)

/-- `check_transformation_matrix`: reject a supplied matrix with zero
determinant; otherwise classify the circuit's own modes and the supplied
matrix's columns, emit one warning per mode type for which the circuit
classification counts strictly more modes than the supplied one, and
return the supplied classification. -/
def check_transformation_matrix (c : Circuit) (M : List Vec) :
    Except String (List (ModeType × ℤ) × VarCategories) :=
  if detQ c.numNodes M = 0 then
    Except.error "The transformation matrix provided is not invertible"
  else
    Except.ok (checkWarnings c M, userVarCategories c M)

/-! ## The capacitance matrix (`_capacitance_matrix`)

Branch parameters are resolved to rationals through a valuation `ν`; with
`ν` ranging over all assignments this covers both the numeric path
(`substitute_params` or no symbolic parameters) and, entry-wise, the
symbolic path (a polynomial identity over `ℚ` holding for every valuation
holds symbolically). -/

/-- Resolve a branch parameter value through a symbol valuation. -/
def pvalue (ν : ℕ → ℚ) : PVal → ℚ
  | .num q => q
  | .sym s => ν s

/-- The capacitance-like parameter of a branch (`EC` for capacitors, `ECJ`
— the second parameter — for Josephson branches). -/
def capParam (b : Branch) : PVal :=
  match b.btype with
  | .C => b.params.getD 0 (.num 0)
  | .JJ => b.params.getD 1 (.num 0)
  | .JJ2 => b.params.getD 1 (.num 0)
  | .L => .num 0

/-- `branches_with_capacitance`. -/
def branchesWithCapacitance (c : Circuit) : List Branch :=
  c.branches.filter (fun b => b.btype = .C ∨ b.btype = .JJ ∨ b.btype = .JJ2)

/-- Size of the capacitance matrix before ground removal
(`num_nodes`, `+1` when grounded). -/
def cmatSize (c : Circuit) : ℕ :=
  if c.isGrounded then c.numNodes + 1 else c.numNodes

/-- Row/column index of a node id (`branch.nodes[k].id` when grounded,
`… - 1` otherwise). -/
def cnodeIdx (c : Circuit) (id : ℕ) : ℕ :=
  if c.isGrounded then id else id - 1

/-- One step of the accumulation loop: a non-shorted capacitance-carrying
branch adds `-1/(8·C)` at `(nodes[0], nodes[1])`
(`len(set(branch.nodes)) > 1` is the shorted-branch guard). -/
def cmatStep (c : Circuit) (ν : ℕ → ℚ)
    (M : Matrix (Fin (cmatSize c)) (Fin (cmatSize c)) ℚ) (b : Branch) :
    Matrix (Fin (cmatSize c)) (Fin (cmatSize c)) ℚ :=
  if 1 < ({b.n0, b.n1} : Finset ℕ).card then
    let capacitance := pvalue ν (capParam b)
    fun i j =>
      if (i : ℕ) = cnodeIdx c b.n0 ∧ (j : ℕ) = cnodeIdx c b.n1 then
        qadd (M i j) (qneg (qdiv 1 (qmul capacitance 8)))
      else M i j
  else M

/-- The accumulation loop filling the strictly off-diagonal entries. -/
def cmatAccum (c : Circuit) (ν : ℕ → ℚ) :
    Matrix (Fin (cmatSize c)) (Fin (cmatSize c)) ℚ :=
  (branchesWithCapacitance c).foldl (cmatStep c ν) 0

/-- `C_mat + C_mat.T - np.diag(C_mat.diagonal())`. -/
def cmatSym (c : Circuit) (ν : ℕ → ℚ) :
    Matrix (Fin (cmatSize c)) (Fin (cmatSize c)) ℚ :=
  fun i j =>
    qsub (qadd (cmatAccum c ν i j) (cmatAccum c ν j i))
      (if i = j then cmatAccum c ν i i else 0)

/-- Kernel-computable row sum. -/
def rowSum {N : ℕ} (M : Matrix (Fin N) (Fin N) ℚ) (i : Fin N) : ℚ :=
  ((List.finRange N).map (M i)).foldl qadd 0

/-- The capacitance matrix before ground removal: diagonal overwritten with
the negated full row sum (`C_mat[i, i] = -np.sum(C_mat[i, :])`). -/
def cmatFull (c : Circuit) (ν : ℕ → ℚ) :
    Matrix (Fin (cmatSize c)) (Fin (cmatSize c)) ℚ :=
  fun i j => if i = j then qneg (rowSum (cmatSym c ν) i) else cmatSym c ν i j

/-- `_capacitance_matrix`: the returned matrix, with the ground row and
column removed when the circuit is grounded. -/
def _capacitance_matrix (c : Circuit) (ν : ℕ → ℚ) :
    Matrix (Fin c.numNodes) (Fin c.numNodes) ℚ :=
  fun i j =>
    cmatFull c ν
      ⟨i + (if c.isGrounded then 1 else 0), by
        unfold cmatSize; split <;> omega⟩
      ⟨j + (if c.isGrounded then 1 else 0), by
        unfold cmatSize; split <;> omega⟩

/-- A circuit is well formed when every branch endpoint is an existing node
id: `0` only when grounded, and at most `numNodes`. -/
def WellFormed (c : Circuit) : Prop :=
  ∀ b ∈ c.branches,
    (c.isGrounded = true ∨ (1 ≤ b.n0 ∧ 1 ≤ b.n1)) ∧
    b.n0 ≤ c.numNodes ∧ b.n1 ≤ c.numNodes

instance (c : Circuit) : Decidable (WellFormed c) := by
  unfold WellFormed; infer_instance

lemma pair_card_lt (a b : ℕ) : 1 < ({a, b} : Finset ℕ).card ↔ a ≠ b := by
  rcases eq_or_ne a b with h | h
  · subst h; simp
  · rw [Finset.card_insert_of_not_mem (by simp [h])]
    simp [h]

lemma cnodeIdx_ne (c : Circuit) {b : Branch} (hb : b ∈ c.branches)
    (hwf : WellFormed c) (hne : b.n0 ≠ b.n1) :
    cnodeIdx c b.n0 ≠ cnodeIdx c b.n1 := by
  obtain ⟨hg, _, _⟩ := hwf b hb
  unfold cnodeIdx
  rcases hgr : c.isGrounded with _ | _
  · simp only [hgr, Bool.false_eq_true, if_false]
    rcases hg with hg | ⟨h0, h1⟩
    · rw [hgr] at hg; cases hg
    · omega
  · simp only [hgr, if_true]
    exact hne

lemma cmatStep_diag (c : Circuit) (ν : ℕ → ℚ)
    (M : Matrix (Fin (cmatSize c)) (Fin (cmatSize c)) ℚ) (b : Branch)
    (hidx : b.n0 ≠ b.n1 → cnodeIdx c b.n0 ≠ cnodeIdx c b.n1)
    (hM : ∀ i, M i i = 0) : ∀ i, cmatStep c ν M b i i = 0 := by
  intro i
  unfold cmatStep
  split
  · next hcard =>
    have hne := hidx ((pair_card_lt _ _).mp hcard)
    simp only []
    split
    · next hij => exact absurd (hij.1.symm.trans hij.2) hne
    · exact hM i
  · exact hM i

lemma foldl_cmatStep_diag (c : Circuit) (ν : ℕ → ℚ) (l : List Branch) :
    ∀ M : Matrix (Fin (cmatSize c)) (Fin (cmatSize c)) ℚ,
      (∀ i, M i i = 0) →
      (∀ b ∈ l, b.n0 ≠ b.n1 → cnodeIdx c b.n0 ≠ cnodeIdx c b.n1) →
      ∀ i, (l.foldl (cmatStep c ν) M) i i = 0 := by
  induction l with
  | nil => intro M hM _ i; exact hM i
  | cons b t ih =>
    intro M hM hl i
    simp only [List.foldl_cons]
    exact ih _ (cmatStep_diag c ν M b (hl b (by simp)) hM)
      (fun b' hb' => hl b' (by simp [hb'])) i

lemma cmatAccum_diag (c : Circuit) (ν : ℕ → ℚ) (hwf : WellFormed c) :
    ∀ i, cmatAccum c ν i i = 0 := by
  unfold cmatAccum
  refine foldl_cmatStep_diag c ν _ 0 (fun i => rfl) ?_
  intro b hb hne
  exact cnodeIdx_ne c (List.mem_of_mem_filter hb) hwf hne

lemma cmatSym_symm (c : Circuit) (ν : ℕ → ℚ) (i j : Fin (cmatSize c)) :
    cmatSym c ν i j = cmatSym c ν j i := by
  unfold cmatSym
  by_cases h : i = j
  · subst h; rfl
  · simp only [h, Ne.symm h, if_false]
    rw [qadd_eq, qadd_eq, add_comm]

lemma cmatSym_diag (c : Circuit) (ν : ℕ → ℚ) (hwf : WellFormed c)
    (i : Fin (cmatSize c)) : cmatSym c ν i i = 0 := by
  unfold cmatSym
  simp [cmatAccum_diag c ν hwf, qadd_eq, qsub_eq]

lemma cmatFull_symm (c : Circuit) (ν : ℕ → ℚ) (i j : Fin (cmatSize c)) :
    cmatFull c ν i j = cmatFull c ν j i := by
  unfold cmatFull
  by_cases h : i = j
  · subst h; rfl
  · simp only [h, Ne.symm h, if_false]
    exact cmatSym_symm c ν i j

lemma foldl_qadd (l : List ℚ) : ∀ a : ℚ, l.foldl qadd a = a + l.sum := by
  induction l with
  | nil => intro a; simp
  | cons x xs ih =>
    intro a
    simp only [List.foldl_cons, List.sum_cons, ih, qadd_eq]
    ring

lemma rowSum_eq {N : ℕ} (M : Matrix (Fin N) (Fin N) ℚ) (i : Fin N) :
    rowSum M i = ∑ j, M i j := by
  unfold rowSum
  rw [foldl_qadd, zero_add, Fin.sum_univ_def]

lemma cmatFull_diag_eq_neg_offdiag (c : Circuit) (ν : ℕ → ℚ)
    (hwf : WellFormed c) (i : Fin (cmatSize c)) :
    cmatFull c ν i i = -∑ j ∈ Finset.univ.erase i, cmatFull c ν i j := by
  have hful : ∀ j ∈ Finset.univ.erase i, cmatFull c ν i j = cmatSym c ν i j := by
    intro j hj
    have : i ≠ j := fun h => (Finset.mem_erase.mp hj).1 h.symm
    simp [cmatFull, this]
  rw [Finset.sum_congr rfl hful]
  have hdiag : cmatFull c ν i i = qneg (rowSum (cmatSym c ν) i) := by
    simp [cmatFull]
  rw [hdiag, qneg_eq, rowSum_eq, neg_inj,
    ← Finset.add_sum_erase Finset.univ (cmatSym c ν i) (Finset.mem_univ i),
    cmatSym_diag c ν hwf, zero_add]

lemma cmatFull_rowsum_zero (c : Circuit) (ν : ℕ → ℚ) (hwf : WellFormed c)
    (i : Fin (cmatSize c)) : ∑ j, cmatFull c ν i j = 0 := by
  rw [← Finset.add_sum_erase Finset.univ (cmatFull c ν i) (Finset.mem_univ i),
    cmatFull_diag_eq_neg_offdiag c ν hwf i, neg_add_cancel]

/-! ## Spanning tree and closure branches (`_spanning_tree`)

The disposable structural copy (`circ_copy`) is modelled as the pair
(remaining node ids, remaining branches); each node's `branches` attribute
is the sublist of remaining branches incident to it, which the source keeps
in sync with the global branch list. -/

/-- `is_same_branch`: equal type, parameters and ordered node ids. -/
def is_same_branch (b₁ b₂ : Branch) : Bool :=
  decide (b₁.btype = b₂.btype ∧ b₁.params = b₂.params ∧
    b₁.n0 = b₂.n0 ∧ b₁.n1 = b₂.n1)

/-- `node.branches` in the copy: remaining branches incident to `x`, in
creation order. -/
def branchesOf (bs : List Branch) (x : ℕ) : List Branch :=
  bs.filter (fun b => b.n0 = x ∨ b.n1 = x)

/-- `len(node.branches)`: a shorted branch is appended to its node twice. -/
def degreeOf (bs : List Branch) (x : ℕ) : ℕ :=
  bs.foldl (fun acc b =>
    acc + (if b.n0 = x then 1 else 0) + (if b.n1 = x then 1 else 0)) 0

/-- One pass of `for node in circ_copy.nodes:` in the trimming loop, with
CPython's iterator-under-mutation semantics.  Returns the remaining nodes,
remaining branches and the number of removals (`num_float_nodes`). -/
def trimPass : ℕ → ℕ → List ℕ → List Branch → ℕ → List ℕ × List Branch × ℕ
  | 0, _, nodes, bs, cnt => (nodes, bs, cnt)
  | fuel + 1, i, nodes, bs, cnt =>
    match nodes[i]? with
    | none => (nodes, bs, cnt)
    | some x =>
      if degreeOf bs x = 0 then
        trimPass fuel i (nodes.eraseIdx i) bs (cnt + 1)
      else if degreeOf bs x = 1 then
        match branchesOf bs x with
        | [] => trimPass fuel (i + 1) nodes bs cnt
        | b :: _ =>
          trimPass fuel i (nodes.eraseIdx i) (bs.erase b) (cnt + 1)
      else
        trimPass fuel (i + 1) nodes bs cnt

/-- The `while num_float_nodes > 0:` trimming loop. -/
def trimLoop : ℕ → List ℕ → List Branch → List ℕ × List Branch
  | 0, nodes, bs => (nodes, bs)
  | fuel + 1, nodes, bs =>
    let (nodes', bs', cnt) := trimPass (2 * nodes.length + 1) 0 nodes bs 0
    if cnt > 0 then trimLoop fuel nodes' bs' else (nodes', bs')

/-- `node.connected_nodes("all")` on the copy: the opposite endpoint of
each incident branch, in branch order. -/
def connectedNodesAll (bs : List Branch) (x : ℕ) : List ℕ :=
  (branchesOf bs x).map (fun b => if b.n0 = x then b.n1 else b.n0)

/-- One iteration body of the `node_sets` construction: handle an empty
current set by seeding it with the first unplaced node, collect the
neighbours of the current set, drop already-placed nodes, deduplicate and
sort ascending. -/
def nodeSetsStep (remNodes : List ℕ) (bs : List Branch)
    (node_sets : List (List ℕ)) (idx : ℕ) : List (List ℕ) :=
  let placed := node_sets.flatten
  let cur := node_sets.getD idx []
  let node_sets' :=
    if cur = [] then
      match remNodes.filter (fun x => decide (x ∉ placed)) with
      | [] => node_sets
      | y :: _ => node_sets.set idx (cur ++ [y])
    else node_sets
  let cur' := node_sets'.getD idx []
  let raw := cur'.flatMap (connectedNodesAll bs)
  let placed' := (node_sets'.take (idx + 1)).flatten
  let fresh := (raw.dedup.filter (fun x => decide (x ∉ placed'))).insertionSort (· ≤ ·)
  node_sets' ++ [fresh]

/-- The `while len(sum(node_sets, [])) < num_nodes:` loop. -/
def nodeSetsLoop (remNodes : List ℕ) (bs : List Branch) (num_nodes : ℕ) :
    ℕ → List (List ℕ) → ℕ → List (List ℕ)
  | 0, node_sets, _ => node_sets
  | fuel + 1, node_sets, idx =>
    if node_sets.flatten.length < num_nodes then
      nodeSetsLoop remNodes bs num_nodes fuel
        (nodeSetsStep remNodes bs node_sets idx) (idx + 1)
    else node_sets

/-- `connecting_branches(n1, n2)`: remaining branches incident to both. -/
def connectingBranches (bs : List Branch) (x y : ℕ) : List Branch :=
  (branchesOf bs x).filter (fun b => b ∈ branchesOf bs y)

/-- The spanning-tree selection: for each node of each level `k > 0`, the
first branch connecting it to the first connected node of level `k − 1`. -/
def treeFromNodeSets (bs : List Branch) (node_sets : List (List ℕ)) :
    List Branch :=
  (node_sets.enum.filter (fun p => decide (p.1 ≠ 0))).flatMap (fun p =>
    p.2.flatMap (fun x =>
      match (node_sets.getD (p.1 - 1) []).filter
          (fun y => decide (connectingBranches bs x y ≠ [])) with
      | [] => []
      | y :: _ =>
        match connectingBranches bs x y with
        | [] => []
        | b :: _ => [b]))

/-- `_spanning_tree`: trim the capacitor-free copy, build breadth-first
node sets, select the tree, and map the copy's branches back to the
original branches by `is_same_branch` (every match is appended). -/
def _spanning_tree (c : Circuit) : List Branch × List Branch :=
  let bs₀ := c.branches.filter (fun b => b.btype ≠ BranchType.C)
  let nodes₀ := List.range' 1 c.numNodes
  let (remNodes, remBs) := trimLoop (nodes₀.length + 1) nodes₀ bs₀
  if remNodes = [] then ([], [])
  else
    let start : List (List ℕ) := if c.isGrounded then [[0]] else [[remNodes.headD 0]]
    let num_nodes := remNodes.length + (if c.isGrounded then 1 else 0)
    let node_sets := nodeSetsLoop remNodes remBs num_nodes
      (2 * num_nodes + 2) start 0
    let tree_copy := treeFromNodeSets remBs node_sets
    let tree := tree_copy.flatMap (fun tc =>
      c.branches.filter (fun b => is_same_branch tc b))
    let loops := remBs.flatMap (fun bc =>
      c.branches.filter (fun b => is_same_branch b bc))
    (tree, loops)

/-- `_closure_branches`: the loop branches outside the spanning tree.  The
source's `list(set(loop_branches) - set(tree))` order is unspecified
(object-identity hashing); the embedding fixes first-occurrence order. -/
def _closure_branches (c : Circuit) : List Branch :=
  let (tree, loops) := _spanning_tree c
  if tree = [] then []
  else (loops.dedup).filter (fun b => decide (b ∉ tree))

/-! ## Symbolic Lagrangian and Hamiltonian (`generate_symbolic_lagrangian`,
`generate_symbolic_hamiltonian`)

The potential is a sum of quadratic terms `0.5·EL·(a·θ)²` (inductors) and
cosine terms `−EJ·cos(a·θ + φ_ext)` (junctions); both shapes are closed
under the linear substitutions the pipeline performs, so the symbolic
expressions are embedded as coefficient records.  Symbolic branch
parameters are resolved through the initial-value valuation and external
fluxes contribute no numeric offset; this models the numeric path exactly
and the sympy path through its values. -/

/-- A quadratic potential term `0.5·el·(coeffs · θ)²`; `extIdx` records the
external-flux symbol attached to a closure branch. -/
structure QuadTerm where
  el : ℚ
  coeffs : List ℚ
  extIdx : Option ℕ
deriving DecidableEq, Repr

/-- A cosine potential term `−amp·cos(coeffs · θ + …)`. -/
structure CosTerm where
  amp : ℚ
  coeffs : List ℚ
  extIdx : Option ℕ
deriving DecidableEq, Repr

/-- A potential: quadratic plus cosine terms. -/
structure PotentialRep where
  quads : List QuadTerm
  coss : List CosTerm
deriving DecidableEq, Repr

/-- The node-variable coefficient vector of the flux difference across a
branch (`φ_{n1} − φ_{n0}`, one-sided for ground-adjacent branches). -/
def branchCoeffs (n : ℕ) (b : Branch) : List ℚ :=
  (List.range n).map (fun i =>
    if b.n1 = 0 then (if i + 1 = b.n0 then -1 else 0)
    else if b.n0 = 0 then (if i + 1 = b.n1 then 1 else 0)
    else if i + 1 = b.n1 then 1 else if i + 1 = b.n0 then -1 else 0)

/-- `phi_ext` lookup: the external-flux index of a closure branch. -/
def phiExtOf (closure : List Branch) (b : Branch) : Option ℕ :=
  if b ∈ closure then some (closure.indexOf b) else none

/-- `_inductor_terms` (coefficients in node variables). -/
def inductorTerms (c : Circuit) (ν : ℕ → ℚ) (closure : List Branch) :
    List QuadTerm :=
  (c.branches.filter (fun b => b.btype = .L)).map (fun b =>
    { el := pvalue ν (b.params.getD 0 (.num 0))
      coeffs := branchCoeffs c.numNodes b
      extIdx := phiExtOf closure b })

/-- `_junction_terms` (`"JJ"` branches; coefficients in node variables). -/
def junctionTerms (c : Circuit) (ν : ℕ → ℚ) (closure : List Branch) :
    List CosTerm :=
  (c.branches.filter (fun b => b.btype = .JJ)).map (fun b =>
    { amp := pvalue ν (b.params.getD 0 (.num 0))
      coeffs := branchCoeffs c.numNodes b
      extIdx := phiExtOf closure b })

/-- `_JJ2_terms`: the doubled-frequency variant doubles the argument. -/
def jj2Terms (c : Circuit) (ν : ℕ → ℚ) (closure : List Branch) :
    List CosTerm :=
  (c.branches.filter (fun b => b.btype = .JJ2)).map (fun b =>
    { amp := pvalue ν (b.params.getD 0 (.num 0))
      coeffs := (branchCoeffs c.numNodes b).map (qmul 2)
      extIdx := phiExtOf closure b })

/-- Re-express a node-variable coefficient vector in the new variables
(`a ↦ aᵀ·T`, the substitution `φ = T θ`). -/
def toThetaCoeffs (n : ℕ) (T : List Vec) (a : List ℚ) : List ℚ :=
  (List.range n).map (fun j =>
    ((List.range n).map (fun i => qmul (a.getD i 0) ((T.getD i []).getD j 0))).foldl
      qadd 0)

/-- The potential in the new variables. -/
def potentialTheta (c : Circuit) (ν : ℕ → ℚ) (T : List Vec)
    (closure : List Branch) : PotentialRep :=
  { quads := (inductorTerms c ν closure).map (fun t =>
      { t with coeffs := toThetaCoeffs c.numNodes T t.coeffs })
    coss := (junctionTerms c ν closure ++ jj2Terms c ν closure).map (fun t =>
      { t with coeffs := toThetaCoeffs c.numNodes T t.coeffs }) }

/-- The coefficient vector of `∂(quadratic part)/∂θ_k` (0-based `k`). -/
def quadDerivCoeffs (n : ℕ) (quads : List QuadTerm) (k : ℕ) : List ℚ :=
  (List.range n).map (fun j =>
    (quads.map (fun t =>
      qmul (t.el) (qmul (t.coeffs.getD k 0) (t.coeffs.getD j 0)))).foldl qadd 0)

/-- Substitute `θ_k := sub · θ` (with `sub` having a zero at `k`) into an
affine coefficient vector. -/
def substCoeffs (k : ℕ) (sub : List ℚ) (a : List ℚ) : List ℚ :=
  (List.range a.length).map (fun j =>
    if j = k then 0
    else qadd (a.getD j 0) (qmul (a.getD k 0) (sub.getD j 0)))

/-- One frozen-variable elimination step (`sympy.solve(∂V/∂θ_k, θ_k)` then
substitute the root back).  Modelled from the spec for the cases sympy
decides: a stationarity condition involving `θ_k` through a cosine has no
closed form here, and an empty solution list is the source's `IndexError`;
a linear condition with nonzero `θ_k` coefficient is solved exactly. -/
def eliminateFrozen (n : ℕ) (pot : PotentialRep) (k : ℕ) :
    Option PotentialRep :=
  if pot.coss.any (fun t => qmul t.amp (t.coeffs.getD k 0) ≠ 0) then none
  else
    let d := quadDerivCoeffs n pot.quads k
    if hdk : d.getD k 0 = 0 then none
    else
      let sub := (List.range n).map (fun j =>
        if j = k then 0 else qneg (qdiv (d.getD j 0) (d.getD k 0)))
      some
        { quads := pot.quads.map (fun t => { t with coeffs := substCoeffs k sub t.coeffs })
          coss := pot.coss.map (fun t => { t with coeffs := substCoeffs k sub t.coeffs }) }

/-- The frozen-elimination loop over `var_categories["frozen"]`
(1-based indices). -/
def eliminateAllFrozen (n : ℕ) (frozen : List ℕ) (pot : PotentialRep) :
    Option PotentialRep :=
  frozen.foldl (fun acc k =>
    match acc with
    | none => none
    | some p => eliminateFrozen n p (k - 1)) (some pot)

/-- Matrix product of row-listed matrices. -/
def matMulL (n : ℕ) (A B : List (List ℚ)) : List (List ℚ) :=
  (List.range n).map (fun i => (List.range n).map (fun j =>
    ((List.range n).map (fun k =>
      qmul ((A.getD i []).getD k 0) ((B.getD k []).getD j 0))).foldl qadd 0))

/-- The capacitance matrix as a row list. -/
def cmatList (c : Circuit) (ν : ℕ → ℚ) : List (List ℚ) :=
  (List.finRange c.numNodes).map (fun i =>
    (List.finRange c.numNodes).map (fun j => _capacitance_matrix c ν i j))

/-- `M[0:k, 0:k]`. -/
def sliceKK (k : ℕ) (A : List (List ℚ)) : List (List ℚ) :=
  (A.take k).map (fun r => r.take k)

/-- `np.linalg.inv` idealised over `ℚ` (adjugate over determinant; `none`
models the `LinAlgError` on a singular matrix). -/
def matInvQ (k : ℕ) (A : List (List ℚ)) : Option (List (List ℚ)) :=
  let d := detQ k A
  if d = 0 then none
  else
    some ((List.range k).map (fun i => (List.range k).map (fun j =>
      qdiv (qmul (if (i + j) % 2 = 0 then 1 else -1)
        (detQ (k - 1) ((A.eraseIdx j).map (fun r => r.eraseIdx i)))) d)))

/-- The result of `generate_symbolic_lagrangian`: the kinetic quadratic
form in the new variables, the eliminated potential, and the potential in
node variables. -/
structure LagrangianRep where
  kineticTheta : List (List ℚ)
  potTheta : PotentialRep
  potNode : PotentialRep
deriving DecidableEq, Repr

/-- `generate_symbolic_lagrangian`: capacitance matrix, kinetic form
`0.5·θ̇ᵀ(TᵀCT)θ̇`, potential transform and frozen elimination (`none`
models the uncaught solver failure). -/
def generate_symbolic_lagrangian (c : Circuit) (ν : ℕ → ℚ) (T : List Vec)
    (cats : VarCategories) (closure : List Branch) : Option LagrangianRep :=
  let n := c.numNodes
  let Cm := cmatList c ν
  let kin := matMulL n (matMulL n (transposeL n T) Cm) T
  let potθ := potentialTheta c ν T closure
  let potφ : PotentialRep :=
    { quads := inductorTerms c ν closure
      coss := junctionTerms c ν closure ++ jj2Terms c ν closure }
  match eliminateAllFrozen n cats.frozen potθ with
  | none => none
  | some potθ' => some { kineticTheta := kin, potTheta := potθ', potNode := potφ }

/-- The result of `generate_symbolic_hamiltonian`: the inverted reduced
capacitance matrix, the momentum variables (`none` at a cyclic index means
the momentum was replaced by zero), the potential, and the periodic indices
receiving the offset-charge substitution. -/
structure HamiltonianRep where
  CmatTheta : List (List ℚ)
  momenta : List (Option ℕ)
  potential : PotentialRep
  offsetSubs : List ℕ
deriving DecidableEq, Repr

/-- `generate_symbolic_hamiltonian`: invert `(TᵀCT)[0:n−f, 0:n−f]`
(`none` models `numpy.linalg.LinAlgError` on a singular block), zero the
cyclic momenta, and record the offset-charge substitution for the periodic
indices. -/
def generate_symbolic_hamiltonian (c : Circuit) (ν : ℕ → ℚ) (T : List Vec)
    (cats : VarCategories) (pot : PotentialRep) : Option HamiltonianRep :=
  let n := c.numNodes
  let num_frozen :=
    if c.isGrounded then cats.frozen.length else cats.frozen.length + 1
  let k := n - num_frozen
  let block := sliceKK k (matMulL n (matMulL n (transposeL n T) (cmatList c ν)) T)
  match matInvQ k block with
  | none => none
  | some Cθ =>
    some
      { CmatTheta := Cθ
        momenta := (List.range' 1 k).map (fun i =>
          if i ∈ cats.cyclic then none else some i)
        potential := pot
        offsetSubs := cats.periodic }

/-! ## Initialization (`initiate_symboliccircuit`) and the one mutator -/

/-- The attribute state of a `SymbolicCircuit` instance after a successful
`initiate_symboliccircuit`. -/
structure SCState where
  circuit : Circuit
  param_vars : List String
  param_init_vals : List ℚ
  transformation_matrix : List Vec
  var_categories : VarCategories
  closure_branches : List Branch
  external_fluxes : List ℕ
  offset_charges : List ℕ
  lagrangian : LagrangianRep
  hamiltonian_symbolic : Option HamiltonianRep
deriving DecidableEq, Repr

/-- Python's `closure_branches or self._closure_branches()`: a missing or
empty supplied list falls back to the computed one. -/
def pyOrClosure (cbs : Option (List Branch)) (c : Circuit) : List Branch :=
  match cbs with
  | none => _closure_branches c
  | some l => if l = [] then _closure_branches c else l

/-- `_set_external_fluxes`: filter the closure branches to non-capacitive
ones; when any remain, store them and create one flux symbol per branch,
otherwise leave the stored list and the (empty) flux list unchanged. -/
def set_external_fluxes (c : Circuit) (stored : List Branch)
    (cbs : Option (List Branch)) : List Branch × List ℕ :=
  let closure_branches := (pyOrClosure cbs c).filter (fun b => b.btype ≠ .C)
  if 0 < closure_branches.length then
    (closure_branches, (List.range closure_branches.length).map (· + 1))
  else (stored, [])

/-- The transformation-matrix stage of `initiate_symboliccircuit`: check a
supplied matrix, or compute one. -/
def initTransform (c : Circuit) (transformation_matrix : Option (List Vec)) :
    Except String (List Vec × VarCategories) :=
  match transformation_matrix with
  | some M =>
    match check_transformation_matrix c M with
    | .error e => .error e
    | .ok (_, cats) => .ok (M, cats)
  | none =>
    match variable_transformation_matrix c with
    | none => .error "IndexError: basis-completion candidates exhausted"
    | some r => .ok (r.matrixRows, r.categories)

/-- `initiate_symboliccircuit`: check or compute the transformation matrix,
find the closure branches, set external fluxes and offset charges, build
the Lagrangian, and compute the Hamiltonian eagerly only when the node
count is at most 3.  Uncaught Python exceptions are `Except.error`; the
symbol valuation ν binds each symbolic parameter to its initial value. -/
def initiate_symboliccircuit (c : Circuit) (param_vars : List String)
    (param_init_vals : List ℚ) (transformation_matrix : Option (List Vec))
    (closure_branches : Option (List Branch)) : Except String SCState :=
  match initTransform c transformation_matrix with
  | .error e => .error e
  | .ok (M, cats) =>
    let ν : ℕ → ℚ := fun i => param_init_vals.getD i 0
    let cf := set_external_fluxes c (pyOrClosure closure_branches c)
      closure_branches
    match generate_symbolic_lagrangian c ν M cats cf.1 with
    | none => .error "sympy.solve returned no closed-form root"
    | some lag =>
      if c.numNodes ≤ 3 then
        match generate_symbolic_hamiltonian c ν M cats lag.potTheta with
        | none => .error "numpy.linalg.LinAlgError: singular matrix"
        | some H =>
          .ok
            { circuit := c, param_vars := param_vars
              param_init_vals := param_init_vals
              transformation_matrix := M, var_categories := cats
              closure_branches := cf.1, external_fluxes := cf.2
              offset_charges := cats.periodic, lagrangian := lag
              hamiltonian_symbolic := some H }
      else
        .ok
          { circuit := c, param_vars := param_vars
            param_init_vals := param_init_vals
            transformation_matrix := M, var_categories := cats
            closure_branches := cf.1, external_fluxes := cf.2
            offset_charges := cats.periodic, lagrangian := lag
            hamiltonian_symbolic := none }

/-- `update_param_init_val`: set the bound value of the first declared
parameter with the given name; silently do nothing when no name matches. -/
def update_param_init_val (s : SCState) (param_name : String) (value : ℚ) :
    SCState :=
  match s.param_vars.findIdx? (fun p => decide (param_name = p)) with
  | some index => { s with param_init_vals := s.param_init_vals.set index value }
  | none => s

/-! ## Concrete example circuits -/

/-- Transmon: two ungrounded nodes joined by a capacitor and a junction. -/
def transmonC : Branch := ⟨0, .C, 1, 2, [.num 1]⟩

def transmonJJ : Branch := ⟨1, .JJ, 1, 2, [.num 1, .num 1]⟩

def transmon : Circuit :=
  { numNodes := 2, branches := [transmonC, transmonJJ], isGrounded := false }

/-- Grounded two-node circuit: junction 1–2, inductor 2–ground,
capacitor 1–ground. -/
def gjlJJ : Branch := ⟨0, .JJ, 1, 2, [.num 1, .num 1]⟩

def gjlL : Branch := ⟨1, .L, 2, 0, [.num 1]⟩

def gjlC : Branch := ⟨2, .C, 1, 0, [.num 1]⟩

def groundedJJL : Circuit :=
  { numNodes := 2, branches := [gjlJJ, gjlL, gjlC], isGrounded := true }

/-- Three-node all-capacitive mesh. -/
def meshC12 : Branch := ⟨0, .C, 1, 2, [.num 1]⟩

def meshC23 : Branch := ⟨1, .C, 2, 3, [.num 1]⟩

def meshC13 : Branch := ⟨2, .C, 1, 3, [.num 1]⟩

def capMesh3 : Circuit :=
  { numNodes := 3, branches := [meshC12, meshC23, meshC13], isGrounded := false }

/-- Two-node loop: junction and inductor in parallel (one closure branch). -/
def jlJJ : Branch := ⟨0, .JJ, 1, 2, [.num 1, .num 1]⟩

def jlL : Branch := ⟨1, .L, 1, 2, [.num 1]⟩

def jlLoop : Circuit :=
  { numNodes := 2, branches := [jlJJ, jlL], isGrounded := false }

/-- Four-node ring of junctions (node count above the eager-Hamiltonian
threshold). -/
def ringJJ1 : Branch := ⟨0, .JJ, 1, 2, [.num 1, .num 1]⟩

def ringJJ2 : Branch := ⟨1, .JJ, 2, 3, [.num 1, .num 1]⟩

def ringJJ3 : Branch := ⟨2, .JJ, 3, 4, [.num 1, .num 1]⟩

def ringJJ4 : Branch := ⟨3, .JJ, 4, 1, [.num 1, .num 1]⟩

def jjRing4 : Circuit :=
  { numNodes := 4, branches := [ringJJ1, ringJJ2, ringJJ3, ringJJ4],
    isGrounded := false }

/-! ## Claim C8: branch connectivity -/

/-- C8 (counterexample): the claim asserts that the connectivity test
returns `True` iff the branches share a node, for every pair including
shorted branches.  The shorted branch `(1,1)` and the branch `(2,3)` give
an endpoint union of three distinct nodes, so `is_connected` is `True`,
yet no node is shared. -/
theorem claim_C8_counterexample :
    ((Branch.mk 0 .C 1 1 []).is_connected (Branch.mk 1 .C 2 3 []) = true) ∧
    ¬ sharesNode (Branch.mk 0 .C 1 1 []) (Branch.mk 1 .C 2 3 []) := by
  constructor
  · decide
  · decide

/-- C8 (amended): for branches whose two endpoints are distinct
(non-shorted), the connectivity test returns `True` iff the union of the
endpoint sets has fewer than four distinct nodes, iff the branches share at
least one node. -/
theorem claim_C8 (b₁ b₂ : Branch) (h₁ : b₁.n0 ≠ b₁.n1) (h₂ : b₂.n0 ≠ b₂.n1) :
    (b₁.is_connected b₂ = true ↔ (endpointUnion b₁ b₂).card < 4) ∧
    (b₁.is_connected b₂ = true ↔ sharesNode b₁ b₂) := by
  refine ⟨decide_eq_true_iff, ?_, ?_⟩
  · exact is_connected_of_not_shorted b₁ b₂ h₁ h₂
  · exact sharesNode_is_connected b₁ b₂

/-- C8 witness: the amended equivalence instantiated at the non-shorted
branches `(1,2)` and `(2,3)`. -/
theorem claim_C8_witness :
    ((1 : ℕ) ≠ 2) ∧ ((2 : ℕ) ≠ 3) ∧
    (((Branch.mk 0 .C 1 2 []).is_connected (Branch.mk 1 .C 2 3 []) = true) ↔
      sharesNode (Branch.mk 0 .C 1 2 []) (Branch.mk 1 .C 2 3 [])) :=
  ⟨by decide, by decide,
    (claim_C8 (Branch.mk 0 .C 1 2 []) (Branch.mk 1 .C 2 3 [])
      (by decide) (by decide)).2⟩

/-! ## Claim C7: capacitance-matrix shape -/

/-- C7: for every circuit with in-range branch endpoints and every
resolution of the branch parameters (covering both values of the
substitution flag), the capacitance matrix built before ground removal is
symmetric, each diagonal entry is the negated sum of its row's off-diagonal
entries, every row sums to zero, and the returned matrix (after ground
removal when grounded) is symmetric. -/
theorem claim_C7 (c : Circuit) (ν : ℕ → ℚ) (hwf : WellFormed c) :
    (∀ i j, cmatFull c ν i j = cmatFull c ν j i) ∧
    (∀ i, cmatFull c ν i i = -∑ j ∈ Finset.univ.erase i, cmatFull c ν i j) ∧
    (∀ i, ∑ j, cmatFull c ν i j = 0) ∧
    (∀ i j, _capacitance_matrix c ν i j = _capacitance_matrix c ν j i) :=
  ⟨cmatFull_symm c ν,
   cmatFull_diag_eq_neg_offdiag c ν hwf,
   cmatFull_rowsum_zero c ν hwf,
   fun i j => cmatFull_symm c ν _ _⟩

/-- C7 witness: the transmon circuit is well formed and satisfies the
capacitance-matrix shape properties with all parameters bound to 1. -/
theorem claim_C7_witness :
    WellFormed transmon ∧
    (∀ i j, cmatFull transmon (fun _ => 1) i j = cmatFull transmon (fun _ => 1) j i) ∧
    (∀ i, cmatFull transmon (fun _ => 1) i i =
      -∑ j ∈ Finset.univ.erase i, cmatFull transmon (fun _ => 1) i j) ∧
    (∀ i, ∑ j, cmatFull transmon (fun _ => 1) i j = 0) ∧
    (∀ i j, _capacitance_matrix transmon (fun _ => 1) i j =
      _capacitance_matrix transmon (fun _ => 1) j i) :=
  ⟨by decide, claim_C7 transmon (fun _ => 1) (by decide)⟩

/-! ## Claim C2: category sets -/

/-- C2 (counterexample): the claim asserts all five category index sets
(periodic, extended, cyclic, frozen, osc) are pairwise disjoint.  For the
grounded circuit {JJ 1–2, L 2–ground, C 1–ground}, index 2 is classified
both `extended` and `osc` (the source never removes the `pos_osc` indices
from `pos_rest`). -/
theorem claim_C2_counterexample :
    ((variable_transformation_matrix groundedJJL).map
      (fun r => r.categories.extended) = some [2]) ∧
    ((variable_transformation_matrix groundedJJL).map
      (fun r => r.categories.osc) = some [2]) := by
  constructor
  · decide
  · decide

/-- C4 (counterexample): the claim asserts a warning is emitted whenever a
supplied classification's count differs from the automatic one in either
direction.  Supplying the identity matrix for the (ungrounded) transmon
classifies both columns periodic, while the automatic classification has a
single periodic mode — the counts differ, yet the warning list is empty
(the source warns only when the automatic count is strictly larger). -/
theorem claim_C4_counterexample :
    check_transformation_matrix transmon [[1, 0], [0, 1]] =
      Except.ok ([], { periodic := [1, 2] }) ∧
    circuitVarCategories transmon = { periodic := [2] } := by
  constructor
  · decide
  · decide

lemma getD_mem_of_lt {l : List ℕ} {i : ℕ} (h : i < l.length) : l.getD i 0 ∈ l := by
  rw [List.getD_eq_getElem?_getD, List.getElem?_eq_getElem h]
  exact List.getElem_mem h

lemma disjoint_filter_of_not_both {l : List ℕ} {p q : ℕ → Bool}
    (h : ∀ x ∈ l, ¬(p x = true ∧ q x = true)) :
    List.Disjoint (l.filter p) (l.filter q) := by
  intro x hxp hxq
  rw [List.mem_filter] at hxp hxq
  exact h x hxp.1 ⟨hxp.2, hxq.2⟩

/-- Five mutually exclusive predicates covering a duplicate-free list
partition it: the concatenation of the five filters is a permutation of
the list. -/
lemma perm_filter_five (l : List ℕ) (hn : l.Nodup) (q₁ q₂ q₃ q₄ q₅ : ℕ → Bool)
    (hcov : ∀ x ∈ l,
      q₁ x = true ∨ q₂ x = true ∨ q₃ x = true ∨ q₄ x = true ∨ q₅ x = true)
    (h12 : ∀ x ∈ l, ¬(q₁ x = true ∧ q₂ x = true))
    (h13 : ∀ x ∈ l, ¬(q₁ x = true ∧ q₃ x = true))
    (h14 : ∀ x ∈ l, ¬(q₁ x = true ∧ q₄ x = true))
    (h15 : ∀ x ∈ l, ¬(q₁ x = true ∧ q₅ x = true))
    (h23 : ∀ x ∈ l, ¬(q₂ x = true ∧ q₃ x = true))
    (h24 : ∀ x ∈ l, ¬(q₂ x = true ∧ q₄ x = true))
    (h25 : ∀ x ∈ l, ¬(q₂ x = true ∧ q₅ x = true))
    (h34 : ∀ x ∈ l, ¬(q₃ x = true ∧ q₄ x = true))
    (h35 : ∀ x ∈ l, ¬(q₃ x = true ∧ q₅ x = true))
    (h45 : ∀ x ∈ l, ¬(q₄ x = true ∧ q₅ x = true)) :
    (l.filter q₁ ++ l.filter q₂ ++ l.filter q₃ ++ l.filter q₄ ++
      l.filter q₅).Perm l := by
  refine List.perm_of_nodup_nodup_toFinset_eq ?_ hn ?_
  · refine List.Nodup.append ?_ (hn.filter q₅) ?_
    · refine List.Nodup.append ?_ (hn.filter q₄) ?_
      · refine List.Nodup.append ?_ (hn.filter q₃) ?_
        · exact List.Nodup.append (hn.filter q₁) (hn.filter q₂)
            (disjoint_filter_of_not_both h12)
        · rw [List.disjoint_append_left]
          exact ⟨disjoint_filter_of_not_both h13, disjoint_filter_of_not_both h23⟩
      · rw [List.disjoint_append_left, List.disjoint_append_left]
        exact ⟨⟨disjoint_filter_of_not_both h14, disjoint_filter_of_not_both h24⟩,
          disjoint_filter_of_not_both h34⟩
    · rw [List.disjoint_append_left, List.disjoint_append_left,
        List.disjoint_append_left]
      exact ⟨⟨⟨disjoint_filter_of_not_both h15, disjoint_filter_of_not_both h25⟩,
        disjoint_filter_of_not_both h35⟩, disjoint_filter_of_not_both h45⟩
  · ext x
    simp only [List.mem_toFinset, List.mem_append, List.mem_filter]
    constructor
    · rintro ((((⟨h, -⟩ | ⟨h, -⟩) | ⟨h, -⟩) | ⟨h, -⟩) | ⟨h, -⟩) <;> exact h
    · intro hx
      rcases hcov x hx with h | h | h | h | h <;> simp [hx, h]

lemma mem_vtmPosSum {c : Circuit} {nb : List Vec} {x : ℕ}
    (h : x ∈ vtmPosSum c nb) :
    x < nb.length ∧ nb.getD x [] = sumMode c := by
  unfold vtmPosSum at h
  split at h
  · rw [List.mem_filter, List.mem_range] at h
    exact ⟨h.1, of_decide_eq_true h.2⟩
  · cases h

lemma mem_vtmPosCyclic {c : Circuit} {nb : List Vec} {x : ℕ}
    (h : x ∈ vtmPosCyclic c nb) :
    x ∉ vtmPosSum c nb ∧ nb.getD x [] ∈ cyclicModes c := by
  unfold vtmPosCyclic at h
  rw [List.mem_filter] at h
  have := h.2
  simp only [Bool.and_eq_true, decide_eq_true_eq] at this
  exact this

lemma mem_vtmPosPeriodic {c : Circuit} {nb : List Vec} {x : ℕ}
    (h : x ∈ vtmPosPeriodic c nb) :
    x ∉ vtmPosSum c nb ∧ x ∉ vtmPosCyclic c nb ∧
      nb.getD x [] ∈ periodicModes c := by
  unfold vtmPosPeriodic at h
  rw [List.mem_filter] at h
  have := h.2
  simp only [Bool.and_eq_true, decide_eq_true_eq] at this
  tauto

lemma mem_vtmPosFrozen {c : Circuit} {nb : List Vec} {x : ℕ}
    (h : x ∈ vtmPosFrozen c nb) :
    x ∉ vtmPosSum c nb ∧ x ∉ vtmPosCyclic c nb ∧ x ∉ vtmPosPeriodic c nb := by
  unfold vtmPosFrozen at h
  rw [List.mem_filter] at h
  have := h.2
  simp only [Bool.and_eq_true, decide_eq_true_eq] at this
  tauto

lemma mem_vtmPosRest {c : Circuit} {nb : List Vec} {x : ℕ}
    (h : x ∈ vtmPosRest c nb) :
    x ∉ vtmPosSum c nb ∧ x ∉ vtmPosCyclic c nb ∧ x ∉ vtmPosPeriodic c nb ∧
      x ∉ vtmPosFrozen c nb := by
  unfold vtmPosRest at h
  rw [List.mem_filter] at h
  have := h.2
  simp only [Bool.and_eq_true, decide_eq_true_eq] at this
  tauto

lemma mem_vtmPosOsc_sub_rest {c : Circuit} {nb : List Vec} {x : ℕ}
    (h : x ∈ vtmPosOsc c nb) : x ∈ vtmPosRest c nb := by
  unfold vtmPosOsc at h
  unfold vtmPosRest
  rw [List.mem_filter] at h ⊢
  refine ⟨h.1, ?_⟩
  have := h.2
  simp only [Bool.and_eq_true, decide_eq_true_eq] at this ⊢
  tauto

lemma catPositions_mono (pl : List ℕ) {A B : List ℕ} (hsub : A ⊆ B) :
    catPositions pl A ⊆ catPositions pl B := by
  intro x hx
  unfold catPositions at hx ⊢
  rw [List.mem_map] at hx ⊢
  obtain ⟨i, hi, rfl⟩ := hx
  refine ⟨i, ?_, rfl⟩
  rw [List.mem_filter] at hi ⊢
  exact ⟨hi.1, decide_eq_true (hsub (of_decide_eq_true hi.2))⟩

/-- C2 (amended): for every circuit whose transformation-matrix
construction completes, the periodic, extended, cyclic and frozen category
index sets, together with the sum-mode positions, list each coordinate
index `1 … number-of-variables` exactly once (so those four sets are
pairwise disjoint and cover the active range); the `osc` set, however, is
contained in `extended` rather than disjoint from it. -/
theorem claim_C2 (c : Circuit) (r : TransformResult)
    (h : variable_transformation_matrix c = some r) :
    (r.categories.periodic ++ r.categories.extended ++ r.categories.cyclic ++
      r.categories.frozen ++ r.sumPos).Perm
      ((List.range r.newBasisRows.length).map (· + 1)) ∧
    r.categories.osc ⊆ r.categories.extended := by
  unfold variable_transformation_matrix at h
  rw [Option.map_eq_some'] at h
  obtain ⟨nb, hnb, hr⟩ := h
  subst hr
  dsimp only
  constructor
  · rw [List.length_map]
    unfold catPositions
    rw [← List.map_append, ← List.map_append, ← List.map_append,
      ← List.map_append]
    refine List.Perm.map _ ?_
    refine perm_filter_five _ (List.nodup_range _) _ _ _ _ _ ?_ ?_ ?_ ?_ ?_ ?_ ?_ ?_ ?_ ?_ ?_
    · intro x hx
      rw [List.mem_range] at hx
      have hv : (vtmPosList c nb).getD x 0 ∈ vtmPosList c nb := getD_mem_of_lt hx
      unfold vtmPosList at hv
      simp only [List.mem_append] at hv
      simp only [decide_eq_true_eq]
      unfold vtmPosList
      tauto
    all_goals
      intro x _
      simp only [decide_eq_true_eq]
      rintro ⟨hA, hB⟩
    · exact absurd hA (mem_vtmPosRest hB).2.2.1
    · exact absurd hB (mem_vtmPosPeriodic hA).2.1
    · exact absurd hA (mem_vtmPosFrozen hB).2.2
    · exact absurd hB (mem_vtmPosPeriodic hA).1
    · exact absurd hB (mem_vtmPosRest hA).2.1
    · exact absurd hB (mem_vtmPosRest hA).2.2.2
    · exact absurd hB (mem_vtmPosRest hA).1
    · exact absurd hA (mem_vtmPosFrozen hB).2.1
    · exact absurd hB (mem_vtmPosCyclic hA).1
    · exact absurd hB (mem_vtmPosFrozen hA).1
  · exact catPositions_mono _ (fun x hx => mem_vtmPosOsc_sub_rest hx)

/-- C2 witness: the amended statement instantiated at the grounded
{JJ 1–2, L 2–ground, C 1–ground} circuit. -/
theorem claim_C2_witness :
    variable_transformation_matrix groundedJJL =
      some { newBasisRows := [[1, 0], [1, 1]],
             matrixRows := [[1, 1], [0, 1]],
             categories :=
               { periodic := [1], extended := [2], osc := [2] },
             sumPos := [] } ∧
    (([1] ++ [2] ++ [] ++ [] ++ [] : List ℕ).Perm
        ((List.range ([[1, 0], [1, 1]] : List Vec).length).map (· + 1)) ∧
      ([2] : List ℕ) ⊆ [2]) := by
  refine ⟨by decide, ?_⟩
  have h := claim_C2 groundedJJL
    { newBasisRows := [[1, 0], [1, 1]],
      matrixRows := [[1, 1], [0, 1]],
      categories := { periodic := [1], extended := [2], osc := [2] },
      sumPos := [] } (by decide)
  exact h

/-- C4 (amended): whenever `check_transformation_matrix` accepts a supplied
matrix, it returns the supplied classification as authoritative, and a mode
type carries a warning exactly when the automatically computed count
strictly exceeds the supplied one — a supplied count exceeding the
automatic one passes silently. -/
theorem claim_C4 (c : Circuit) (M : List Vec) (w : List (ModeType × ℤ))
    (cats : VarCategories)
    (h : check_transformation_matrix c M = Except.ok (w, cats)) :
    cats = userVarCategories c M ∧
    ∀ t : ModeType,
      (∃ e, (t, e) ∈ w) ↔
        ((userVarCategories c M).ofType t).length <
          ((circuitVarCategories c).ofType t).length := by
  unfold check_transformation_matrix at h
  split at h
  · cases h
  · injection h with h'
    injection h' with hw hc
    subst hw
    refine ⟨hc.symm, ?_⟩
    intro t
    constructor
    · rintro ⟨e, he⟩
      unfold checkWarnings at he
      rw [List.mem_filterMap] at he
      obtain ⟨a, _, ha⟩ := he
      split at ha
      · next hpos =>
        injection ha with ha'
        have hat : a = t := congrArg Prod.fst ha'
        subst hat
        omega
      · cases ha
    · intro hlt
      refine ⟨((circuitVarCategories c).ofType t).length -
        ((userVarCategories c M).ofType t).length, ?_⟩
      unfold checkWarnings
      rw [List.mem_filterMap]
      refine ⟨t, by cases t <;> simp, ?_⟩
      have hpos : (0 : ℤ) < ((circuitVarCategories c).ofType t).length -
          ((userVarCategories c M).ofType t).length := by omega
      simp only [hpos, if_pos]

/-- C4 witness: the amended statement instantiated at the transmon with a
supplied identity matrix (accepted, no warnings, supplied classification
returned). -/
theorem claim_C4_witness :
    check_transformation_matrix transmon [[1, 0], [0, 1]] =
      Except.ok ([], { periodic := [1, 2] }) ∧
    (({ periodic := [1, 2] } : VarCategories) =
        userVarCategories transmon [[1, 0], [0, 1]] ∧
      ∀ t : ModeType,
        (∃ e, (t, e) ∈ ([] : List (ModeType × ℤ))) ↔
          ((userVarCategories transmon [[1, 0], [0, 1]]).ofType t).length <
            ((circuitVarCategories transmon).ofType t).length) :=
  ⟨by decide, claim_C4 transmon [[1, 0], [0, 1]] [] { periodic := [1, 2] }
    (by decide)⟩

/-! ## Claim C3: eager Hamiltonian computation -/

/-- C3 (counterexample): the claim asserts that for the three-node
all-capacitive mesh no Hamiltonian is produced at initialization.  The
source computes the symbolic Hamiltonian eagerly whenever
`len(self.nodes) <= 3`, and the mesh has exactly three nodes, so
initialization succeeds with a Hamiltonian present. -/
theorem claim_C3_counterexample :
    (initiate_symboliccircuit capMesh3 [] [] none none).map
      (fun s => s.hamiltonian_symbolic.isSome) = Except.ok true := by decide

/-- C3 (amended): initialization computes the symbolic Hamiltonian eagerly
exactly when the node count is at most 3 (so the three-node all-capacitive
mesh receives one); only circuits with more than three nodes defer it to
explicit request. -/
theorem claim_C3 (c : Circuit) (pv : List String) (pvals : List ℚ)
    (tM : Option (List Vec)) (cbs : Option (List Branch)) (s : SCState)
    (h : initiate_symboliccircuit c pv pvals tM cbs = Except.ok s) :
    s.hamiltonian_symbolic.isSome = decide (c.numNodes ≤ 3) := by
  unfold initiate_symboliccircuit at h
  split at h
  · cases h
  · next M cats heq =>
    dsimp only at h
    cases hlag : generate_symbolic_lagrangian c (fun i => pvals.getD i 0) M cats
        (set_external_fluxes c (pyOrClosure cbs c) cbs).1 with
    | none => rw [hlag] at h; cases h
    | some lag =>
      rw [hlag] at h
      dsimp only at h
      by_cases hle : c.numNodes ≤ 3
      · rw [if_pos hle] at h
        cases hham : generate_symbolic_hamiltonian c (fun i => pvals.getD i 0)
            M cats lag.potTheta with
        | none => rw [hham] at h; cases h
        | some H =>
          rw [hham] at h
          dsimp only at h
          injection h with h'
          subst h'
          simp [hle]
      · rw [if_neg hle] at h
        injection h with h'
        subst h'
        simp [hle]

/-- C3 witness: the amended statement at the four-node junction ring, whose
initialization succeeds with the Hamiltonian deferred. -/
theorem claim_C3_witness :
    ∃ s, initiate_symboliccircuit jjRing4 [] [] none none = Except.ok s ∧
      s.hamiltonian_symbolic.isSome = decide (jjRing4.numNodes ≤ 3) := by
  cases hs : initiate_symboliccircuit jjRing4 [] [] none none with
  | error e =>
    have hok : (initiate_symboliccircuit jjRing4 [] [] none none).isOk = true := by
      decide
    rw [hs] at hok
    cases hok
  | ok s => exact ⟨s, rfl, claim_C3 jjRing4 [] [] none none s hs⟩

/-! ## Claim C5: external-flux and offset-charge counts -/

lemma set_external_fluxes_spec (c : Circuit) (cbs : Option (List Branch)) :
    ((set_external_fluxes c (pyOrClosure cbs c) cbs).1.countP
        (fun b => decide (b.btype ≠ BranchType.C)) =
      (set_external_fluxes c (pyOrClosure cbs c) cbs).2.length) ∧
    (∀ b ∈ (set_external_fluxes c (pyOrClosure cbs c) cbs).1,
      b.btype = .C → (set_external_fluxes c (pyOrClosure cbs c) cbs).2 = []) := by
  unfold set_external_fluxes
  by_cases hpos :
      0 < ((pyOrClosure cbs c).filter (fun b => b.btype ≠ BranchType.C)).length
  · simp only [hpos, if_pos, List.length_map, List.length_range]
    constructor
    · rw [List.countP_eq_length]
      intro b hb
      have := List.of_mem_filter hb
      simpa using this
    · intro b hb hC
      have := List.of_mem_filter hb
      simp [hC] at this
  · simp only [hpos, if_neg, reduceIte]
    have hnil : (pyOrClosure cbs c).filter (fun b => b.btype ≠ BranchType.C) = [] := by
      cases hll : (pyOrClosure cbs c).filter (fun b => b.btype ≠ BranchType.C) with
      | nil => rfl
      | cons x xs => rw [hll] at hpos; simp at hpos
    constructor
    · rw [List.countP_eq_length_filter, hnil]
      rfl
    · intro b _ _
      trivial

/-- C5: after a successful initialization, the number of external-flux
symbols equals the number of non-capacitor branches in the stored
closure-branch list, a capacitor-type closure branch never receives an
external-flux symbol (the flux list is empty whenever one is stored), and
the number of offset-charge symbols equals the periodic-category count. -/
theorem claim_C5 (c : Circuit) (pv : List String) (pvals : List ℚ)
    (tM : Option (List Vec)) (cbs : Option (List Branch)) (s : SCState)
    (h : initiate_symboliccircuit c pv pvals tM cbs = Except.ok s) :
    s.closure_branches.countP (fun b => decide (b.btype ≠ BranchType.C)) =
      s.external_fluxes.length ∧
    (∀ b ∈ s.closure_branches, b.btype = .C → s.external_fluxes = []) ∧
    s.offset_charges.length = s.var_categories.periodic.length := by
  have hspec := set_external_fluxes_spec c cbs
  unfold initiate_symboliccircuit at h
  split at h
  · cases h
  · next M cats heq =>
    dsimp only at h
    cases hlag : generate_symbolic_lagrangian c (fun i => pvals.getD i 0) M cats
        (set_external_fluxes c (pyOrClosure cbs c) cbs).1 with
    | none => rw [hlag] at h; cases h
    | some lag =>
      rw [hlag] at h
      dsimp only at h
      by_cases hle : c.numNodes ≤ 3
      · rw [if_pos hle] at h
        cases hham : generate_symbolic_hamiltonian c (fun i => pvals.getD i 0)
            M cats lag.potTheta with
        | none => rw [hham] at h; cases h
        | some H =>
          rw [hham] at h
          dsimp only at h
          injection h with h'
          subst h'
          exact ⟨hspec.1, hspec.2, rfl⟩
      · rw [if_neg hle] at h
        injection h with h'
        subst h'
        exact ⟨hspec.1, hspec.2, rfl⟩

/-- C5 witness: the junction–inductor loop initializes with one closure
branch (the inductor), one external-flux symbol, and no offset charges. -/
theorem claim_C5_witness :
    ∃ s, initiate_symboliccircuit jlLoop [] [] none none = Except.ok s ∧
      (s.closure_branches.countP (fun b => decide (b.btype ≠ BranchType.C)) =
          s.external_fluxes.length ∧
        (∀ b ∈ s.closure_branches, b.btype = .C → s.external_fluxes = []) ∧
        s.offset_charges.length = s.var_categories.periodic.length) := by
  cases hs : initiate_symboliccircuit jlLoop [] [] none none with
  | error e =>
    have hok : (initiate_symboliccircuit jlLoop [] [] none none).isOk = true := by
      decide
    rw [hs] at hok
    cases hok
  | ok s => exact ⟨s, rfl, claim_C5 jlLoop [] [] none none s hs⟩

/-! ## Claim C10: the parameter-update mutator -/

lemma findIdx?_first {p : String → Bool} :
    ∀ (l : List String) (i : ℕ), l.findIdx? p = some i →
      i < l.length ∧ p (l.getD i "") = true ∧ ∀ j < i, p (l.getD j "") = false := by
  intro l
  induction l with
  | nil => intro i h; cases h
  | cons x xs ih =>
    intro i h
    rw [List.findIdx?_cons] at h
    split at h
    · next hp =>
      injection h with h'
      subst h'
      exact ⟨by simp, by simpa using hp, by omega⟩
    · next hp =>
      rw [List.findIdx?_succ, Option.map_eq_some'] at h
      obtain ⟨k, hk, rfl⟩ := h
      obtain ⟨hlt, hpk, hprev⟩ := ih k hk
      refine ⟨by simp; omega, by simpa using hpk, ?_⟩
      intro j hj
      cases j with
      | zero => simpa using hp
      | succ j' =>
        have := hprev j' (by omega)
        simpa using this

/-- C10: updating a named parameter's bound value changes at most the
single bound-value entry at the index of the first declared parameter whose
name matches; every other attribute (parameter symbols, circuit data,
transformation matrix, categories, closure branches, fluxes, offset
charges, cached symbolic expressions) is unchanged, values at other indices
are unchanged, and an unmatched name is a silent no-op. -/
theorem claim_C10 (s : SCState) (name : String) (v : ℚ) :
    (update_param_init_val s name v).circuit = s.circuit ∧
    (update_param_init_val s name v).param_vars = s.param_vars ∧
    (update_param_init_val s name v).transformation_matrix =
      s.transformation_matrix ∧
    (update_param_init_val s name v).var_categories = s.var_categories ∧
    (update_param_init_val s name v).closure_branches = s.closure_branches ∧
    (update_param_init_val s name v).external_fluxes = s.external_fluxes ∧
    (update_param_init_val s name v).offset_charges = s.offset_charges ∧
    (update_param_init_val s name v).lagrangian = s.lagrangian ∧
    (update_param_init_val s name v).hamiltonian_symbolic =
      s.hamiltonian_symbolic ∧
    (s.param_vars.findIdx? (fun p => decide (name = p)) = none →
      update_param_init_val s name v = s) ∧
    (∀ i, s.param_vars.findIdx? (fun p => decide (name = p)) = some i →
      i < s.param_vars.length ∧ s.param_vars.getD i "" = name ∧
      (∀ j < i, s.param_vars.getD j "" ≠ name) ∧
      (update_param_init_val s name v).param_init_vals =
        s.param_init_vals.set i v ∧
      ∀ j ≠ i, (update_param_init_val s name v).param_init_vals.getD j 0 =
        s.param_init_vals.getD j 0) := by
  unfold update_param_init_val
  cases hfind : s.param_vars.findIdx? (fun p => decide (name = p)) with
  | none =>
    refine ⟨rfl, rfl, rfl, rfl, rfl, rfl, rfl, rfl, rfl, fun _ => rfl, ?_⟩
    intro i hi
    cases hi
  | some k =>
    obtain ⟨hlt, hpk, hprev⟩ := findIdx?_first s.param_vars k hfind
    refine ⟨rfl, rfl, rfl, rfl, rfl, rfl, rfl, rfl, rfl, fun hnone => ?_, ?_⟩
    · cases hnone
    · intro i hi
      injection hi with hik
      subst hik
      refine ⟨hlt, (of_decide_eq_true hpk).symm, ?_, rfl, ?_⟩
      · intro j hj hname
        have := hprev j hj
        rw [hname] at this
        simp at this
      · intro j hji
        rw [List.getD_eq_getElem?_getD, List.getD_eq_getElem?_getD,
          List.getElem?_set_ne (fun h => hji h.symm)]

/-- C10 witness: updating `"EC"` in a state declaring `["EJ", "EC"]`. -/
theorem claim_C10_witness :
    (update_param_init_val
        { circuit := transmon, param_vars := ["EJ", "EC"],
          param_init_vals := [10, 3], transformation_matrix := [],
          var_categories := {}, closure_branches := [],
          external_fluxes := [], offset_charges := [],
          lagrangian := ⟨[], ⟨[], []⟩, ⟨[], []⟩⟩,
          hamiltonian_symbolic := none } "EC" 5).param_vars = ["EJ", "EC"] :=
  (claim_C10
    { circuit := transmon, param_vars := ["EJ", "EC"],
      param_init_vals := [10, 3], transformation_matrix := [],
      var_categories := {}, closure_branches := [],
      external_fluxes := [], offset_charges := [],
      lagrangian := ⟨[], ⟨[], []⟩, ⟨[], []⟩⟩,
      hamiltonian_symbolic := none } "EC" 5).2.1

/-! ## Rank correctness: `matrix_rank` computes the dimension of the span

`np.linalg.matrix_rank` and `np.linalg.det` drive every accept/reject
decision of `variable_transformation_matrix`; the following development
identifies the executable `matrix_rank` with the dimension of the span of
the rows inside `Fin n → ℚ`, which is what the C1 invertibility argument
needs. -/

/-- The span of the rows of a listed matrix inside `Fin n → ℚ`. -/
def spanL (n : ℕ) (rows : List Vec) : Submodule ℚ (Fin n → ℚ) :=
  Submodule.span ℚ {x | ∃ r ∈ rows, toFun n r = x}

lemma spanL_nil (n : ℕ) : spanL n [] = ⊥ := by
  unfold spanL
  convert Submodule.span_empty
  simp

lemma spanL_cons (n : ℕ) (v : Vec) (rows : List Vec) :
    spanL n (v :: rows) = Submodule.span ℚ {toFun n v} ⊔ spanL n rows := by
  unfold spanL
  rw [show {x | ∃ r ∈ v :: rows, toFun n r = x} =
      insert (toFun n v) {x | ∃ r ∈ rows, toFun n r = x} from ?_,
    Submodule.span_insert]
  ext x
  simp only [Set.mem_setOf_eq, List.mem_cons, Set.mem_insert_iff]
  constructor
  · rintro ⟨r, rfl | hr, hx⟩
    · exact Or.inl hx.symm
    · exact Or.inr ⟨r, hr, hx⟩
  · rintro (rfl | ⟨r, hr, hx⟩)
    · exact ⟨v, Or.inl rfl, rfl⟩
    · exact ⟨r, Or.inr hr, hx⟩

lemma spanL_append (n : ℕ) (a b : List Vec) :
    spanL n (a ++ b) = spanL n a ⊔ spanL n b := by
  induction a with
  | nil => rw [List.nil_append, spanL_nil, bot_sup_eq]
  | cons v t ih => rw [List.cons_append, spanL_cons, ih, spanL_cons, sup_assoc]

lemma spanL_singleton (n : ℕ) (m : Vec) :
    spanL n [m] = Submodule.span ℚ {toFun n m} := by
  rw [spanL_cons, spanL_nil, sup_bot_eq]

lemma spanL_congr {n : ℕ} {r₁ r₂ : List Vec} (h : ∀ r, r ∈ r₁ ↔ r ∈ r₂) :
    spanL n r₁ = spanL n r₂ := by
  unfold spanL
  congr 1
  ext x
  simp only [Set.mem_setOf_eq]
  constructor
  · rintro ⟨r, hr, hx⟩
    exact ⟨r, (h r).mp hr, hx⟩
  · rintro ⟨r, hr, hx⟩
    exact ⟨r, (h r).mpr hr, hx⟩

lemma pivot?_some_spec :
    ∀ {v : Vec} {p : ℕ}, pivot? v = some p → p < v.length ∧ v.getD p 0 ≠ 0 := by
  intro v
  induction v with
  | nil => intro p h; cases h
  | cons x xs ih =>
    intro p h
    unfold pivot? at h
    rw [List.findIdx?_cons] at h
    split at h
    · next hp =>
      injection h with h'
      subst h'
      exact ⟨by simp, by simpa using hp⟩
    · next hp =>
      rw [List.findIdx?_succ, Option.map_eq_some'] at h
      obtain ⟨k, hk, rfl⟩ := h
      obtain ⟨hlt, hk0⟩ := ih hk
      exact ⟨by simpa using Nat.succ_lt_succ hlt, by simpa using hk0⟩

lemma pivot?_none_spec : ∀ {v : Vec}, pivot? v = none → ∀ x ∈ v, x = 0 := by
  intro v
  induction v with
  | nil => intro _ x hx; cases hx
  | cons a xs ih =>
    intro h x hx
    unfold pivot? at h
    rw [List.findIdx?_cons] at h
    split at h
    · cases h
    · next hp =>
      rw [List.findIdx?_succ, Option.map_eq_none'] at h
      rcases List.mem_cons.mp hx with rfl | hx'
      · simpa using hp
      · exact ih h x hx'

lemma toFun_eq_zero {n : ℕ} {v : Vec} (h : ∀ x ∈ v, x = 0) : toFun n v = 0 := by
  funext i
  show v.getD (i : ℕ) 0 = 0
  rw [List.getD_eq_getElem?_getD]
  cases hv : v[(i : ℕ)]? with
  | none => rfl
  | some a =>
    have ha : a ∈ v := List.getElem?_mem hv
    simp [h a ha]

lemma toFun_rowEliminate {n : ℕ} {v w : Vec} (p : ℕ)
    (hv : v.length = n) (hw : w.length = n) :
    toFun n (rowEliminate v p w) =
      toFun n w - (entryAt w p / entryAt v p) • toFun n v := by
  funext i
  have hiw : (i : ℕ) < w.length := hw ▸ i.isLt
  have hiv : (i : ℕ) < v.length := hv ▸ i.isLt
  simp only [toFun, Pi.sub_apply, Pi.smul_apply, smul_eq_mul]
  unfold rowEliminate
  rw [List.getD_eq_getElem?_getD, List.getElem?_zipWith,
    List.getElem?_eq_getElem hiw, List.getElem?_eq_getElem hiv]
  show qsub w[(i : ℕ)] (qmul (qdiv (entryAt w p) (entryAt v p)) v[(i : ℕ)]) = _
  rw [qsub_eq, qmul_eq, qdiv_eq]
  rw [List.getD_eq_getElem?_getD w, List.getD_eq_getElem?_getD v,
    List.getElem?_eq_getElem hiw, List.getElem?_eq_getElem hiv]
  rfl

lemma length_rowEliminate {n : ℕ} {v w : Vec} (p : ℕ)
    (hv : v.length = n) (hw : w.length = n) :
    (rowEliminate v p w).length = n := by
  unfold rowEliminate
  rw [List.length_zipWith, hv, hw]
  exact Nat.min_self n

lemma rankAux_eq_finrank (n : ℕ) :
    ∀ (k : ℕ) (rows : List Vec), rows.length ≤ k →
      (∀ r ∈ rows, r.length = n) →
      rankAux k rows = Module.finrank ℚ (spanL n rows) := by
  intro k
  induction k with
  | zero =>
    intro rows hk _
    have hnil : rows = [] := List.length_eq_zero.mp (Nat.le_zero.mp hk)
    subst hnil
    rw [spanL_nil]
    simp [rankAux, finrank_bot]
  | succ k ih =>
    intro rows hk hlen
    cases rows with
    | nil =>
      rw [spanL_nil]
      simp [rankAux, finrank_bot]
    | cons v rest =>
      have hvlen : v.length = n := hlen v (List.mem_cons_self v rest)
      have hrest : ∀ r ∈ rest, r.length = n := fun r hr =>
        hlen r (List.mem_cons_of_mem v hr)
      have hkr : rest.length ≤ k := by
        rw [List.length_cons] at hk
        omega
      cases hpiv : pivot? v with
      | none =>
        have h0 : toFun n v = 0 := toFun_eq_zero (pivot?_none_spec hpiv)
        have hred : rankAux (k + 1) (v :: rest) = rankAux k rest := by
          simp [rankAux, hpiv]
        rw [hred, ih rest hkr hrest, spanL_cons, h0,
          Submodule.span_zero_singleton, bot_sup_eq]
      | some p =>
        obtain ⟨hplt, hvp⟩ := pivot?_some_spec hpiv
        have hpn : p < n := hvlen ▸ hplt
        have hstep : rankAux (k + 1) (v :: rest) =
            rankAux k (rest.map (rowEliminate v p)) + 1 := by
          simp [rankAux, hpiv]
        have hlen' : ∀ r ∈ rest.map (rowEliminate v p), r.length = n := by
          intro r hr
          rw [List.mem_map] at hr
          obtain ⟨w, hw, rfl⟩ := hr
          exact length_rowEliminate p hvlen (hrest w hw)
        have hk' : (rest.map (rowEliminate v p)).length ≤ k := by
          rw [List.length_map]
          exact hkr
        rw [hstep, ih _ hk' hlen']
        have hspan : Submodule.span ℚ {toFun n v} ⊔
            spanL n (rest.map (rowEliminate v p)) =
            Submodule.span ℚ {toFun n v} ⊔ spanL n rest := by
          apply le_antisymm
          · refine sup_le le_sup_left ?_
            unfold spanL
            rw [Submodule.span_le]
            rintro x ⟨r, hr, rfl⟩
            rw [List.mem_map] at hr
            obtain ⟨w, hw, rfl⟩ := hr
            rw [toFun_rowEliminate p hvlen (hrest w hw)]
            refine Submodule.sub_mem _ ?_ ?_
            · exact Submodule.mem_sup_right (Submodule.subset_span ⟨w, hw, rfl⟩)
            · exact Submodule.smul_mem _ _
                (Submodule.mem_sup_left (Submodule.subset_span rfl))
          · refine sup_le le_sup_left ?_
            show Submodule.span ℚ {x | ∃ r ∈ rest, toFun n r = x} ≤ _
            rw [Submodule.span_le]
            rintro x ⟨w, hw, rfl⟩
            have heq : toFun n w = toFun n (rowEliminate v p w) +
                (entryAt w p / entryAt v p) • toFun n v := by
              rw [toFun_rowEliminate p hvlen (hrest w hw)]
              abel
            rw [heq]
            refine Submodule.add_mem _ ?_
              (Submodule.smul_mem _ _
                (Submodule.mem_sup_left (Submodule.subset_span rfl)))
            exact Submodule.mem_sup_right (Submodule.subset_span
              ⟨rowEliminate v p w, List.mem_map_of_mem _ hw, rfl⟩)
        have hker : spanL n (rest.map (rowEliminate v p)) ≤
            LinearMap.ker (LinearMap.proj (R := ℚ) (φ := fun _ : Fin n => ℚ)
              ⟨p, hpn⟩) := by
          unfold spanL
          rw [Submodule.span_le]
          rintro x ⟨r, hr, rfl⟩
          rw [List.mem_map] at hr
          obtain ⟨w, hw, rfl⟩ := hr
          rw [SetLike.mem_coe, LinearMap.mem_ker]
          rw [toFun_rowEliminate p hvlen (hrest w hw)]
          show w.getD p 0 - w.getD p 0 / v.getD p 0 * v.getD p 0 = 0
          rw [div_mul_cancel₀ _ hvp, sub_self]
        have hvtop : toFun n v ⟨p, hpn⟩ ≠ 0 := hvp
        have hv0 : toFun n v ≠ 0 := fun h => hvtop (by rw [h]; rfl)
        have hdisj : Disjoint (spanL n (rest.map (rowEliminate v p)))
            (Submodule.span ℚ {toFun n v}) := by
          rw [Submodule.disjoint_span_singleton]
          intro hmem
          exact (hvtop (LinearMap.mem_ker.mp (hker hmem))).elim
        have hfin := Submodule.finrank_sup_add_finrank_inf_eq
          (Submodule.span ℚ {toFun n v}) (spanL n (rest.map (rowEliminate v p)))
        rw [disjoint_iff.mp hdisj.symm, finrank_bot,
          finrank_span_singleton hv0] at hfin
        rw [spanL_cons, ← hspan]
        omega

lemma matrix_rank_eq_finrank {n : ℕ} {rows : List Vec}
    (hlen : ∀ r ∈ rows, r.length = n) :
    matrix_rank rows = Module.finrank ℚ (spanL n rows) :=
  rankAux_eq_finrank n rows.length rows le_rfl hlen

lemma finrank_span_one_le (n : ℕ) (x : Fin n → ℚ) :
    Module.finrank ℚ (Submodule.span ℚ {x}) ≤ 1 := by
  by_cases hx : x = 0
  · rw [hx, Submodule.span_zero_singleton, finrank_bot]
    omega
  · rw [finrank_span_singleton hx]

lemma greedyMerge_spec (n : ℕ) :
    ∀ (cands start : List Vec),
      (∀ r ∈ start, r.length = n) → (∀ r ∈ cands, r.length = n) →
      matrix_rank start = start.length →
      (∀ r ∈ greedyMerge start cands, r.length = n) ∧
      matrix_rank (greedyMerge start cands) = (greedyMerge start cands).length ∧
      spanL n (greedyMerge start cands) = spanL n start ⊔ spanL n cands := by
  intro cands
  induction cands with
  | nil =>
    intro start hs _ hr
    refine ⟨?_, ?_, ?_⟩
    · simpa [greedyMerge] using hs
    · simpa [greedyMerge] using hr
    · rw [show greedyMerge start [] = start from rfl, spanL_nil, sup_bot_eq]
  | cons m cs ih =>
    intro start hs hc hr
    have hm : m.length = n := hc m (List.mem_cons_self m cs)
    have hcs : ∀ r ∈ cs, r.length = n := fun r hr' =>
      hc r (List.mem_cons_of_mem m hr')
    have hs' : ∀ r ∈ start ++ [m], r.length = n := by
      intro r hr'
      rcases List.mem_append.mp hr' with h | h
      · exact hs r h
      · rw [List.mem_singleton.mp h]
        exact hm
    have hstep : greedyMerge start (m :: cs) =
        greedyMerge (if matrix_rank (start ++ [m]) = (start ++ [m]).length
          then start ++ [m] else start) cs := rfl
    rw [hstep]
    by_cases hacc : matrix_rank (start ++ [m]) = (start ++ [m]).length
    · rw [if_pos hacc]
      obtain ⟨h1, h2, h3⟩ := ih (start ++ [m]) hs' hcs hacc
      refine ⟨h1, h2, ?_⟩
      rw [h3, spanL_append, spanL_singleton, spanL_cons, sup_assoc]
    · rw [if_neg hacc]
      have e1 : matrix_rank (start ++ [m]) =
          Module.finrank ℚ (spanL n (start ++ [m])) := matrix_rank_eq_finrank hs'
      have e2 : spanL n (start ++ [m]) =
          spanL n start ⊔ Submodule.span ℚ {toFun n m} := by
        rw [spanL_append, spanL_singleton]
      have e3 : matrix_rank start = Module.finrank ℚ (spanL n start) :=
        matrix_rank_eq_finrank hs
      have hsum := Submodule.finrank_sup_add_finrank_inf_eq (spanL n start)
        (Submodule.span ℚ {toFun n m})
      have hone := finrank_span_one_le n (toFun n m)
      have hge : Module.finrank ℚ (spanL n start) ≤
          Module.finrank ℚ ↥(spanL n start ⊔ Submodule.span ℚ {toFun n m}) :=
        Submodule.finrank_mono le_sup_left
      have hlen2 : (start ++ [m]).length = start.length + 1 := by simp
      have hneq : Module.finrank ℚ
          ↥(spanL n start ⊔ Submodule.span ℚ {toFun n m}) ≠ start.length + 1 := by
        intro hE
        exact hacc (by rw [e1, e2, hE, hlen2])
      have hd : Module.finrank ℚ ↥(spanL n start ⊔ Submodule.span ℚ {toFun n m}) ≤
          Module.finrank ℚ (spanL n start) := by omega
      have hsup_eq : spanL n start ⊔ Submodule.span ℚ {toFun n m} =
          spanL n start :=
        (Submodule.eq_of_le_of_finrank_le le_sup_left hd).symm
      obtain ⟨h1, h2, h3⟩ := ih start hs hcs hr
      refine ⟨h1, h2, ?_⟩
      rw [h3, spanL_cons, ← sup_assoc, hsup_eq]

lemma stdLoop_spec (n : ℕ) :
    ∀ (cands std out : List Vec),
      (∀ r ∈ std, r.length = n) → (∀ r ∈ cands, r.length = n) →
      matrix_rank std = std.length →
      stdLoop n cands std = some out →
      (∀ r ∈ out, r.length = n) ∧ matrix_rank out = out.length ∧
        n ≤ matrix_rank out := by
  intro cands
  induction cands with
  | nil =>
    intro std out hstd _ hrank h
    unfold stdLoop at h
    split at h
    · cases h
    · next hge =>
      injection h with h'
      subst h'
      exact ⟨hstd, hrank, Nat.le_of_not_lt hge⟩
  | cons a rest ih =>
    intro std out hstd hcands hrank h
    have ha : a.length = n := hcands a (List.mem_cons_self a rest)
    have hrest : ∀ r ∈ rest, r.length = n := fun r hr =>
      hcands r (List.mem_cons_of_mem a hr)
    unfold stdLoop at h
    split at h
    · split at h
      · next hacc =>
        refine ih (std ++ [a]) out ?_ hrest hacc h
        intro r hr
        rcases List.mem_append.mp hr with h' | h'
        · exact hstd r h'
        · rw [List.mem_singleton.mp h']
          exact ha
      · exact ih std out hstd hrest hrank h
    · next hge =>
      injection h with h'
      subst h'
      exact ⟨hstd, hrank, Nat.le_of_not_lt hge⟩

lemma mem_foldl_extend {g : List Vec → Vec → List Vec}
    (hg : ∀ a m, g a m = a ++ [m] ∨ g a m = a) :
    ∀ (l acc : List Vec) (r : Vec), r ∈ l.foldl g acc → r ∈ acc ∨ r ∈ l := by
  intro l
  induction l with
  | nil => intro acc r h; exact Or.inl h
  | cons m ms ih =>
    intro acc r h
    rw [List.foldl_cons] at h
    rcases ih (g acc m) r h with h' | h'
    · rcases hg acc m with he | he <;> rw [he] at h'
      · rcases List.mem_append.mp h' with h'' | h''
        · exact Or.inl h''
        · exact Or.inr (List.mem_cons.mpr (Or.inl (List.mem_singleton.mp h'')))
      · exact Or.inl h'
    · exact Or.inr (List.mem_cons_of_mem m h')

lemma nodesCopy_length (c : Circuit) :
    (nodesCopy c).length = c.numNodes + (if c.isGrounded then 1 else 0) := by
  unfold nodesCopy
  cases c.isGrounded <;> simp

lemma independent_modes_length (c : Circuit) (bs : List Branch)
    (sn : Bool) (onv offv : ℚ) :
    ∀ v ∈ independent_modes c bs sn onv offv, v.length = c.numNodes := by
  intro v hv
  unfold independent_modes at hv
  simp only [] at hv
  set ind := List.map (nodeMarker (maxConnectedSubgraphs (bs.length + 1) bs))
    (nodesCopy c) with hind
  have hindlen : ind.length = (nodesCopy c).length := by
    rw [hind, List.length_map]
  have hbase : ∀ w ∈ List.map
      (fun m => List.map (fun i => if i = m then onv else offv) ind)
      (List.filter (fun m => decide (m ≠ -1)) (uniqueMarkers ind)),
      w.length = ind.length := by
    intro w hw
    rw [List.mem_map] at hw
    obtain ⟨m, -, rfl⟩ := hw
    rw [List.length_map]
  have hmode : ∀ w ∈ List.map
      (fun pos => List.map (fun x => if x = pos then onv else offv)
        (List.range ind.length))
      (List.map (fun p => p.1) (List.filter (fun p => decide (p.2 = onv))
        (List.map (fun i => if i = 0 then onv else offv) ind).enum)),
      w.length = ind.length := by
    intro w hw
    rw [List.mem_map] at hw
    obtain ⟨m, -, rfl⟩ := hw
    rw [List.length_map, List.length_range]
  have hstep : ∀ (a : List Vec) (m : Vec),
      (if matrix_rank (a ++ [m]) = (a ++ [m]).length then a ++ [m] else a) =
        a ++ [m] ∨
      (if matrix_rank (a ++ [m]) = (a ++ [m]).length then a ++ [m] else a) = a := by
    intro a m
    split
    · exact Or.inl rfl
    · exact Or.inr rfl
  split at hv
  · next hg =>
    rw [List.mem_map] at hv
    obtain ⟨w, hw, rfl⟩ := hv
    have hwl : w.length = ind.length := by
      split at hw
      · split at hw
        · rcases mem_foldl_extend hstep _ _ _ hw with h | h
          · exact hbase _ h
          · exact hmode _ h
        · exact hbase _ hw
      · exact hbase _ hw
    have hnc : (nodesCopy c).length = c.numNodes + 1 := by
      rw [nodesCopy_length, if_pos hg]
    rw [List.length_dropLast, hwl, hindlen, hnc]
    omega
  · next hg =>
    have hwl : v.length = ind.length := by
      split at hv
      · split at hv
        · rcases mem_foldl_extend hstep _ _ _ hv with h | h
          · exact hbase _ h
          · exact hmode _ h
        · exact hbase _ hv
      · exact hbase _ hv
    have hnc : (nodesCopy c).length = c.numNodes := by
      rw [nodesCopy_length, if_neg hg]
      omega
    rw [hwl, hindlen, hnc]

lemma foldSumMode_length (c : Circuit) (frozen : List Vec)
    (hf : ∀ r ∈ frozen, r.length = c.numNodes) :
    ∀ r ∈ foldSumMode c frozen, r.length = c.numNodes := by
  intro r hr
  unfold foldSumMode at hr
  split at hr
  · exact hf r hr
  · split at hr
    · rcases List.mem_append.mp hr with h | h
      · exact hf r (List.mem_of_mem_drop h)
      · rw [List.mem_singleton.mp h]
        unfold sumMode
        exact List.length_replicate _ _
    · rcases List.mem_append.mp hr with h | h
      · exact hf r h
      · rw [List.mem_singleton.mp h]
        unfold sumMode
        exact List.length_replicate _ _

lemma vtmMerged_length (c : Circuit) :
    ∀ r ∈ vtmMerged c, r.length = c.numNodes := by
  have hcands : ∀ r ∈ vtmFrozen c ++ cyclicModes c ++ periodicModes c ++
      lcModesVTM c, r.length = c.numNodes := by
    intro r hr
    rcases List.mem_append.mp hr with hr | hr
    · rcases List.mem_append.mp hr with hr | hr
      · rcases List.mem_append.mp hr with hr | hr
        · exact foldSumMode_length c _ (independent_modes_length c _ _ _ _) r hr
        · exact independent_modes_length c _ _ _ _ r hr
      · exact independent_modes_length c _ _ _ _ r hr
    · exact independent_modes_length c _ _ _ _ r hr
  exact (greedyMerge_spec c.numNodes _ [] (by intro r hr; cases hr) hcands rfl).1

lemma vectorRef_length (n : ℕ) : (vectorRef n).length = n := by
  unfold vectorRef
  split
  · next h =>
    rw [List.length_append, List.length_replicate, List.length_replicate]
    omega
  · next h =>
    rw [List.length_append, List.length_replicate, List.length_replicate]
    omega

lemma allPermsLex_length :
    ∀ (k : ℕ) (l : List ℚ) (r : List ℚ), r ∈ allPermsLex k l →
      r.length = min k l.length := by
  intro k
  induction k with
  | zero =>
    intro l r hr
    rw [List.mem_singleton.mp hr]
    simp
  | succ k ih =>
    intro l r hr
    cases l with
    | nil =>
      rw [List.mem_singleton.mp hr]
      simp
    | cons x xs =>
      unfold allPermsLex at hr
      rw [List.mem_flatMap] at hr
      obtain ⟨i, hi, hr⟩ := hr
      rw [List.mem_map] at hr
      obtain ⟨t, ht, rfl⟩ := hr
      rw [List.mem_range] at hi
      have := ih ((x :: xs).eraseIdx i) t ht
      rw [List.length_cons, this, List.length_eraseIdx]
      rw [if_pos hi]
      rw [List.length_cons] at hi ⊢
      omega

lemma identityRows_length (n : ℕ) :
    ∀ r ∈ identityRows n, r.length = n := by
  intro r hr
  unfold identityRows at hr
  rw [List.mem_map] at hr
  obtain ⟨i, -, rfl⟩ := hr
  rw [List.length_map, List.length_range]

lemma toFun_map_range (n : ℕ) (f : ℕ → ℚ) (j : Fin n) :
    toFun n ((List.range n).map f) j = f (j : ℕ) := by
  show ((List.range n).map f).getD (j : ℕ) 0 = f (j : ℕ)
  rw [List.getD_eq_getElem?_getD, List.getElem?_map, List.getElem?_range j.isLt]
  rfl

lemma spanL_identityRows_top (n : ℕ) : spanL n (identityRows n) = ⊤ := by
  rw [eq_top_iff]
  intro x _
  rw [pi_eq_sum_univ x]
  refine Submodule.sum_mem _ ?_
  intro i _
  refine Submodule.smul_mem _ _ (Submodule.subset_span ?_)
  refine ⟨(List.range n).map (fun j => if (i : ℕ) = j then (1 : ℚ) else 0),
    ?_, ?_⟩
  · unfold identityRows
    exact List.mem_map.mpr ⟨(i : ℕ), List.mem_range.mpr i.isLt, rfl⟩
  · funext j
    rw [toFun_map_range]
    simp [Fin.ext_iff]

lemma matrix_rank_sumRow (n : ℕ) (hn : 0 < n) :
    matrix_rank [List.replicate n (1 : ℚ)] = 1 := by
  cases n with
  | zero => omega
  | succ m =>
    rw [List.replicate_succ]
    show rankAux 1 [(1 : ℚ) :: List.replicate m 1] = 1
    have hpiv : pivot? ((1 : ℚ) :: List.replicate m 1) = some 0 := by
      unfold pivot?
      rw [List.findIdx?_cons]
      simp
    simp [rankAux, hpiv]

lemma vtmMerged_rank (c : Circuit) :
    matrix_rank (vtmMerged c) = (vtmMerged c).length := by
  have hcands : ∀ r ∈ vtmFrozen c ++ cyclicModes c ++ periodicModes c ++
      lcModesVTM c, r.length = c.numNodes := by
    intro r hr
    rcases List.mem_append.mp hr with hr | hr
    · rcases List.mem_append.mp hr with hr | hr
      · rcases List.mem_append.mp hr with hr | hr
        · exact foldSumMode_length c _ (independent_modes_length c _ _ _ _) r hr
        · exact independent_modes_length c _ _ _ _ r hr
      · exact independent_modes_length c _ _ _ _ r hr
    · exact independent_modes_length c _ _ _ _ r hr
  exact (greedyMerge_spec c.numNodes _ [] (by intro r hr; cases hr) hcands rfl).2.1

lemma vtmNewBasis_spec (c : Circuit) (nb : List Vec) (hn : 0 < c.numNodes)
    (h : vtmNewBasis c = some nb) :
    nb.length = c.numNodes ∧ (∀ r ∈ nb, r.length = c.numNodes) ∧
      spanL c.numNodes nb = ⊤ := by
  unfold vtmNewBasis at h
  simp only [] at h
  cases hstd : stdLoop c.numNodes (allPermsLex c.numNodes (vectorRef c.numNodes))
      [List.replicate c.numNodes 1] with
  | none => rw [hstd] at h; cases h
  | some sb =>
    rw [hstd] at h
    dsimp only at h
    injection h with h'
    have hsb := stdLoop_spec c.numNodes _ _ sb
      (by intro r hr
          rw [List.mem_singleton.mp hr]
          exact List.length_replicate _ _)
      (by intro r hr
          rw [allPermsLex_length _ _ r hr, vectorRef_length]
          exact Nat.min_self _)
      (by rw [matrix_rank_sumRow c.numNodes hn]
          rfl)
      hstd
    have hfin : Module.finrank ℚ (Fin c.numNodes → ℚ) = c.numNodes :=
      Module.finrank_fin_fun ℚ
    have hsbtop : spanL c.numNodes sb = ⊤ := by
      apply Submodule.eq_top_of_finrank_eq
      have h1 : matrix_rank sb = Module.finrank ℚ (spanL c.numNodes sb) :=
        matrix_rank_eq_finrank hsb.1
      have h2 : Module.finrank ℚ (spanL c.numNodes sb) ≤ c.numNodes := by
        have := Submodule.finrank_le (spanL c.numNodes sb)
        omega
      have h3 := hsb.2.2
      omega
    have hsb' : (∀ r ∈ (if c.basisCompletion = .standard
          then identityRows c.numNodes else sb), r.length = c.numNodes) ∧
        spanL c.numNodes (if c.basisCompletion = .standard
          then identityRows c.numNodes else sb) = ⊤ := by
      split
      · exact ⟨identityRows_length c.numNodes, spanL_identityRows_top c.numNodes⟩
      · exact ⟨hsb.1, hsbtop⟩
    have hg := greedyMerge_spec c.numNodes _ (vtmMerged c) (vtmMerged_length c)
      hsb'.1 (vtmMerged_rank c)
    rw [h'] at hg
    have htop : spanL c.numNodes nb = ⊤ := by
      rw [hg.2.2, hsb'.2, sup_top_eq]
    refine ⟨?_, hg.1, htop⟩
    have h1 : matrix_rank nb = Module.finrank ℚ (spanL c.numNodes nb) :=
      matrix_rank_eq_finrank hg.1
    rw [htop, finrank_top, hfin] at h1
    rw [← hg.2.1, h1]

lemma vtmPosSum_as_filter (c : Circuit) (nb : List Vec) :
    vtmPosSum c nb = (List.range nb.length).filter
      (fun i => !c.isGrounded && decide (nb.getD i [] = sumMode c)) := by
  unfold vtmPosSum
  cases hg : c.isGrounded
  · simp [hg]
  · simp [hg]

lemma vtmPosList_perm (c : Circuit) (nb : List Vec) :
    (vtmPosList c nb).Perm (List.range nb.length) := by
  show (vtmPosPeriodic c nb ++ vtmPosRest c nb ++ vtmPosCyclic c nb ++
      vtmPosFrozen c nb ++ vtmPosSum c nb).Perm (List.range nb.length)
  rw [vtmPosSum_as_filter]
  refine perm_filter_five _ (List.nodup_range _) _ _ _ _ _ ?_ ?_ ?_ ?_ ?_ ?_ ?_ ?_ ?_ ?_ ?_
  · intro x hx
    by_cases h5 : x ∈ vtmPosSum c nb
    · refine Or.inr (Or.inr (Or.inr (Or.inr ?_)))
      have h5' := (vtmPosSum_as_filter c nb) ▸ h5
      exact (List.mem_filter.mp h5').2
    · by_cases h3 : x ∈ vtmPosCyclic c nb
      · exact Or.inr (Or.inr (Or.inl (List.mem_filter.mp h3).2))
      · by_cases h1 : x ∈ vtmPosPeriodic c nb
        · exact Or.inl (List.mem_filter.mp h1).2
        · by_cases h4 : x ∈ vtmPosFrozen c nb
          · exact Or.inr (Or.inr (Or.inr (Or.inl (List.mem_filter.mp h4).2)))
          · refine Or.inr (Or.inl ?_)
            simp only [Bool.and_eq_true, decide_eq_true_eq]
            exact ⟨⟨⟨h5, h3⟩, h1⟩, h4⟩
  · intro x hx
    rintro ⟨hA, hB⟩
    simp only [Bool.and_eq_true, decide_eq_true_eq] at hB
    exact hB.1.2 (List.mem_filter.mpr ⟨hx, hA⟩)
  · intro x hx
    rintro ⟨hA, hB⟩
    simp only [Bool.and_eq_true, decide_eq_true_eq] at hA
    exact hA.1.2 (List.mem_filter.mpr ⟨hx, hB⟩)
  · intro x hx
    rintro ⟨hA, hB⟩
    simp only [Bool.and_eq_true, decide_eq_true_eq] at hB
    exact hB.1.2 (List.mem_filter.mpr ⟨hx, hA⟩)
  · intro x hx
    rintro ⟨hA, hB⟩
    simp only [Bool.and_eq_true, decide_eq_true_eq] at hA
    refine hA.1.1 ?_
    rw [vtmPosSum_as_filter]
    exact List.mem_filter.mpr ⟨hx, hB⟩
  · intro x hx
    rintro ⟨hA, hB⟩
    simp only [Bool.and_eq_true, decide_eq_true_eq] at hA
    exact hA.1.1.2 (List.mem_filter.mpr ⟨hx, hB⟩)
  · intro x hx
    rintro ⟨hA, hB⟩
    simp only [Bool.and_eq_true, decide_eq_true_eq] at hA
    exact hA.2 (List.mem_filter.mpr ⟨hx, hB⟩)
  · intro x hx
    rintro ⟨hA, hB⟩
    simp only [Bool.and_eq_true, decide_eq_true_eq] at hA
    refine hA.1.1.1 ?_
    rw [vtmPosSum_as_filter]
    exact List.mem_filter.mpr ⟨hx, hB⟩
  · intro x hx
    rintro ⟨hA, hB⟩
    simp only [Bool.and_eq_true, decide_eq_true_eq] at hB
    exact hB.1.1.2 (List.mem_filter.mpr ⟨hx, hA⟩)
  · intro x hx
    rintro ⟨hA, hB⟩
    simp only [Bool.and_eq_true, decide_eq_true_eq] at hA
    refine hA.1 ?_
    rw [vtmPosSum_as_filter]
    exact List.mem_filter.mpr ⟨hx, hB⟩
  · intro x hx
    rintro ⟨hA, hB⟩
    simp only [Bool.and_eq_true, decide_eq_true_eq] at hA
    refine hA.1.1.1 ?_
    rw [vtmPosSum_as_filter]
    exact List.mem_filter.mpr ⟨hx, hB⟩

lemma map_getD_range (nb : List Vec) :
    (List.range nb.length).map (fun i => nb.getD i []) = nb := by
  apply List.ext_getElem
  · rw [List.length_map, List.length_range]
  · intro i h1 h2
    rw [List.getElem_map, List.getElem_range, List.getD_eq_getElem?_getD,
      List.getElem?_eq_getElem h2]
    rfl

lemma rows_perm (c : Circuit) (nb : List Vec) :
    ((vtmPosList c nb).map (fun i => nb.getD i [])).Perm nb := by
  have h := (vtmPosList_perm c nb).map (fun i => nb.getD i [])
  rwa [map_getD_range] at h

lemma getElem?_eraseIdx_my :
    ∀ (l : List ℚ) (i j : ℕ),
      (l.eraseIdx i)[j]? = if j < i then l[j]? else l[j + 1]? := by
  intro l
  induction l with
  | nil =>
    intro i j
    rw [List.eraseIdx_nil]
    split
    · rfl
    · rfl
  | cons a as ih =>
    intro i j
    cases i with
    | zero => simp
    | succ i =>
      rw [List.eraseIdx_cons_succ]
      cases j with
      | zero => simp
      | succ j =>
        rw [List.getElem?_cons_succ, ih i j]
        simp only [Nat.succ_lt_succ_iff]
        split
        · exact (List.getElem?_cons_succ ..).symm
        · exact (List.getElem?_cons_succ ..).symm

lemma foldl_signed (g : ℕ → ℚ) :
    ∀ m : ℕ, (List.range m).foldl
      (fun acc j => if j % 2 = 0 then qadd acc (g j) else qsub acc (g j)) 0 =
      ∑ j ∈ Finset.range m, (-1 : ℚ) ^ j * g j := by
  intro m
  induction m with
  | zero => simp
  | succ m ih =>
    rw [List.range_succ, List.foldl_append, ih, List.foldl_cons, List.foldl_nil,
      Finset.sum_range_succ]
    by_cases hm : m % 2 = 0
    · rw [if_pos hm, qadd_eq, (Nat.even_iff.mpr hm).neg_one_pow, one_mul]
    · rw [if_neg hm, qsub_eq,
        (Nat.odd_iff.mpr (Nat.mod_two_ne_zero.mp hm)).neg_one_pow]
      ring

lemma headD_eq_getD_zero (rows : List Vec) : rows.headD [] = rows.getD 0 [] := by
  cases rows
  · rfl
  · rfl

lemma succAbove_val {n : ℕ} (j : Fin (n + 1)) (k : Fin n) :
    ((j.succAbove k) : ℕ) = if (k : ℕ) < (j : ℕ) then (k : ℕ)
      else (k : ℕ) + 1 := by
  rw [Fin.succAbove]
  split
  · next h =>
    rw [if_pos]
    · exact Fin.coe_castSucc k
    · simpa [Fin.lt_def] using h
  · next h =>
    rw [if_neg]
    · exact Fin.val_succ k
    · simpa [Fin.lt_def] using h

lemma listToMatrix_minor (n : ℕ) (rows : List Vec) (j : Fin (n + 1)) :
    listToMatrix n ((rows.drop 1).map (fun r => r.eraseIdx (j : ℕ))) =
      (listToMatrix (n + 1) rows).submatrix Fin.succ j.succAbove := by
  ext i k
  show ((((rows.drop 1).map (fun r => r.eraseIdx (j : ℕ))).getD (i : ℕ) []).getD
      (k : ℕ) 0) =
    (rows.getD ((i : ℕ) + 1) []).getD ((j.succAbove k : Fin (n + 1)) : ℕ) 0
  rw [List.getD_eq_getElem?_getD ((rows.drop 1).map (fun r => r.eraseIdx (j : ℕ)))]
  rw [List.getElem?_map, List.getElem?_drop]
  rw [List.getD_eq_getElem?_getD rows]
  rw [Nat.add_comm 1 (i : ℕ)] at *
  cases hrow : rows[(i : ℕ) + 1]? with
  | none => simp
  | some r =>
    simp only [Option.map_some', Option.getD_some]
    rw [List.getD_eq_getElem?_getD, getElem?_eraseIdx_my,
      List.getD_eq_getElem?_getD, succAbove_val]
    split
    · rfl
    · rfl

lemma detQ_eq_det : ∀ (n : ℕ) (rows : List Vec),
    detQ n rows = (listToMatrix n rows).det := by
  intro n
  induction n with
  | zero =>
    intro rows
    rw [Matrix.det_fin_zero]
    rfl
  | succ n ih =>
    intro rows
    rw [Matrix.det_succ_row_zero]
    simp only [detQ]
    rw [foldl_signed (fun j => qmul ((rows.headD []).getD j 0)
      (detQ n ((rows.drop 1).map (fun r => r.eraseIdx j))))]
    rw [← Fin.sum_univ_eq_sum_range]
    refine Finset.sum_congr rfl ?_
    intro j _
    rw [qmul_eq, ih, listToMatrix_minor, headD_eq_getD_zero, mul_assoc]
    rfl

lemma listToMatrix_transposeL (n : ℕ) (rows : List Vec) :
    listToMatrix n (transposeL n rows) = (listToMatrix n rows).transpose := by
  ext i k
  show ((transposeL n rows).getD (i : ℕ) []).getD (k : ℕ) 0 =
    (rows.getD (k : ℕ) []).getD (i : ℕ) 0
  unfold transposeL
  rw [List.getD_eq_getElem?_getD ((List.range n).map
    (fun j => rows.map (fun r => r.getD j 0)))]
  rw [List.getElem?_map, List.getElem?_range i.isLt]
  simp only [Option.map_some', Option.getD_some]
  rw [List.getD_eq_getElem?_getD (rows.map (fun r => r.getD (i : ℕ) 0)),
    List.getElem?_map, List.getD_eq_getElem?_getD rows]
  cases hr : rows[(k : ℕ)]? with
  | none => rfl
  | some r => rfl

lemma det_listToMatrix_ne_zero {n : ℕ} {rows : List Vec}
    (hlen : rows.length = n) (hspan : spanL n rows = ⊤) :
    (listToMatrix n rows).det ≠ 0 := by
  intro hdet
  obtain ⟨v, hv0, hv⟩ := Matrix.exists_vecMul_eq_zero_iff.mpr hdet
  have hb : Submodule.span ℚ (Set.range fun i : Fin n =>
      listToMatrix n rows i) = ⊤ := by
    rw [← hspan]
    unfold spanL
    congr 1
    ext x
    constructor
    · rintro ⟨i, rfl⟩
      refine ⟨rows.getD (i : ℕ) [], ?_, rfl⟩
      rw [List.getD_eq_getElem?_getD,
        List.getElem?_eq_getElem (hlen ▸ i.isLt)]
      exact List.getElem_mem _
    · rintro ⟨r, hr, rfl⟩
      obtain ⟨i, hi, heq⟩ := List.mem_iff_getElem.mp hr
      refine ⟨⟨i, hlen ▸ hi⟩, ?_⟩
      show toFun n (rows.getD i []) = toFun n r
      rw [List.getD_eq_getElem?_getD, List.getElem?_eq_getElem hi,
        Option.getD_some, heq]
  have hcard : Fintype.card (Fin n) = Module.finrank ℚ (Fin n → ℚ) := by
    rw [Fintype.card_fin, Module.finrank_fin_fun ℚ]
  have hli : LinearIndependent ℚ (fun i : Fin n => listToMatrix n rows i) :=
    linearIndependent_of_top_le_span_of_card_eq_finrank (le_of_eq hb.symm) hcard
  have hsum : ∑ i, v i • listToMatrix n rows i = 0 := by
    funext j
    have hj := congrFun hv j
    simp only [Matrix.vecMul, Matrix.dotProduct, Pi.zero_apply] at hj
    rw [Finset.sum_apply]
    simpa [smul_eq_mul] using hj
  have hall := Fintype.linearIndependent_iff.mp hli v hsum
  exact hv0 (funext fun i => hall i)

lemma vtm_matrixRows_det (c : Circuit) (r : TransformResult)
    (h : variable_transformation_matrix c = some r) :
    detQ c.numNodes r.matrixRows ≠ 0 := by
  by_cases hn : c.numNodes = 0
  · rw [hn]
    show (1 : ℚ) ≠ 0
    norm_num
  · unfold variable_transformation_matrix at h
    rw [Option.map_eq_some'] at h
    obtain ⟨nb, hnb, hr⟩ := h
    subst hr
    simp only []
    obtain ⟨hlen, hlens, htop⟩ := vtmNewBasis_spec c nb (Nat.pos_of_ne_zero hn) hnb
    have hperm : ((vtmPosList c nb).map (fun i => nb.getD i [])).Perm nb :=
      rows_perm c nb
    have hrlen : ((vtmPosList c nb).map (fun i => nb.getD i [])).length =
        c.numNodes := by
      rw [hperm.length_eq, hlen]
    have hrtop : spanL c.numNodes ((vtmPosList c nb).map (fun i => nb.getD i [])) =
        ⊤ := by
      rw [spanL_congr (fun v => hperm.mem_iff), htop]
    rw [detQ_eq_det, listToMatrix_transposeL, Matrix.det_transpose]
    exact det_listToMatrix_ne_zero hrlen hrtop

lemma initTransform_det (c : Circuit) (tm : Option (List Vec))
    (M : List Vec) (cats : VarCategories)
    (h : initTransform c tm = Except.ok (M, cats)) :
    detQ c.numNodes M ≠ 0 := by
  unfold initTransform at h
  cases tm with
  | some M₀ =>
    dsimp only at h
    cases hc : check_transformation_matrix c M₀ with
    | error e => rw [hc] at h; cases h
    | ok pr =>
      rw [hc] at h
      obtain ⟨w, cats₀⟩ := pr
      dsimp only at h
      injection h with h'
      injection h' with h1 h2
      subst h1
      unfold check_transformation_matrix at hc
      split at hc
      · cases hc
      · next hdet => exact hdet
  | none =>
    dsimp only at h
    cases hv : variable_transformation_matrix c with
    | none => rw [hv] at h; cases h
    | some r =>
      rw [hv] at h
      dsimp only at h
      injection h with h'
      injection h' with h1 h2
      rw [← h1]
      exact vtm_matrixRows_det c r hv

/-- C1: a transformation matrix with zero determinant is fatal.  A supplied
singular matrix aborts initialization with the non-invertibility error, and
every successful initialization, whether the matrix is supplied or computed
automatically, stores a transformation matrix with nonzero determinant. -/
theorem claim_C1 (c : Circuit) (pv : List String) (pvals : List ℚ)
    (cbs : Option (List Branch)) :
    (∀ M, detQ c.numNodes M = 0 →
      initiate_symboliccircuit c pv pvals (some M) cbs =
        Except.error "The transformation matrix provided is not invertible") ∧
    (∀ tm s, initiate_symboliccircuit c pv pvals tm cbs = Except.ok s →
      detQ c.numNodes s.transformation_matrix ≠ 0) := by
  constructor
  · intro M hdet
    unfold initiate_symboliccircuit initTransform check_transformation_matrix
    dsimp only
    rw [if_pos hdet]
  · intro tm s h
    unfold initiate_symboliccircuit at h
    split at h
    · cases h
    · next M cats heq =>
      dsimp only at h
      cases hlag : generate_symbolic_lagrangian c (fun i => pvals.getD i 0) M cats
          (set_external_fluxes c (pyOrClosure cbs c) cbs).1 with
      | none => rw [hlag] at h; cases h
      | some lag =>
        rw [hlag] at h
        dsimp only at h
        by_cases hle : c.numNodes ≤ 3
        · rw [if_pos hle] at h
          cases hham : generate_symbolic_hamiltonian c (fun i => pvals.getD i 0)
              M cats lag.potTheta with
          | none => rw [hham] at h; cases h
          | some H =>
            rw [hham] at h
            dsimp only at h
            injection h with h'
            subst h'
            exact initTransform_det c tm M cats heq
        · rw [if_neg hle] at h
          injection h with h'
          subst h'
          exact initTransform_det c tm M cats heq

/-- C1 witness: the singular supplied matrix `[[1, 1], [1, 1]]` aborts the
transmon's initialization with the non-invertibility error, and the
transmon's automatic initialization stores an invertible matrix. -/
theorem claim_C1_witness :
    (detQ transmon.numNodes [[1, 1], [1, 1]] = 0 ∧
      initiate_symboliccircuit transmon [] [] (some [[1, 1], [1, 1]]) none =
        Except.error "The transformation matrix provided is not invertible") ∧
    (∃ s, initiate_symboliccircuit transmon [] [] none none = Except.ok s ∧
      detQ transmon.numNodes s.transformation_matrix ≠ 0) := by
  constructor
  · exact ⟨by decide, (claim_C1 transmon [] [] none).1 [[1, 1], [1, 1]]
      (by decide)⟩
  · cases hs : initiate_symboliccircuit transmon [] [] none none with
    | error e =>
      have hok : (initiate_symboliccircuit transmon [] [] none none).isOk =
          true := by decide
      rw [hs] at hok
      cases hok
    | ok s => exact ⟨s, rfl, (claim_C1 transmon [] [] none).2 none s hs⟩

/-- Two disconnected inductors on four ungrounded nodes (C6). -/
def c6a : Branch := ⟨0, .L, 1, 2, [.num 1]⟩

def c6b : Branch := ⟨1, .L, 3, 4, [.num 1]⟩

def c6circ : Circuit :=
  { numNodes := 4, branches := [c6a, c6b], isGrounded := false }

/-- C6 counterexample: swapping the two (disconnected, non-shorted) branches
of a subset permutes the discovery order of the connected subgraphs, which
reorders the emitted mode vectors: the two results are different lists. -/
theorem claim_C6_counterexample :
    ([c6a, c6b] : List Branch).Perm [c6b, c6a] ∧
    independent_modes c6circ [c6a, c6b] true 1 0 ≠
      independent_modes c6circ [c6b, c6a] true 1 0 := by
  decide

/-! ## C6: connected-subgraph analysis of `_independent_modes`

`maxConnectedSubgraphs` is characterised as the partition of a (non-shorted,
duplicate-free) branch list into chain-connectivity classes; the discovery
order depends on the input order, the classes themselves do not. -/

/-- Chain connectivity through branches of `bs`: a path of successively
node-sharing branches, all of whose elements lie in `bs`. -/
def chainConn (bs : List Branch) (a b : Branch) : Prop :=
  Relation.ReflTransGen (fun x y => sharesNode x y ∧ y ∈ bs) a b

lemma sharesNode_symm {b₁ b₂ : Branch} (h : sharesNode b₁ b₂) :
    sharesNode b₂ b₁ := by
  unfold sharesNode at h ⊢
  tauto

lemma chainConn_mono {bs bs' : List Branch} (hsub : ∀ b ∈ bs, b ∈ bs')
    {a b : Branch} (h : chainConn bs a b) : chainConn bs' a b := by
  induction h with
  | refl => exact Relation.ReflTransGen.refl
  | tail _ hbc ih => exact Relation.ReflTransGen.tail ih ⟨hbc.1, hsub _ hbc.2⟩

lemma chainConn_mem {bs : List Branch} {a b : Branch} (ha : a ∈ bs)
    (h : chainConn bs a b) : b ∈ bs := by
  induction h with
  | refl => exact ha
  | tail _ hbc _ => exact hbc.2

lemma chainConn_symm {bs : List Branch} {a b : Branch} (ha : a ∈ bs)
    (h : chainConn bs a b) : chainConn bs b a := by
  induction h with
  | refl => exact Relation.ReflTransGen.refl
  | tail hab hbc ih =>
    exact Relation.ReflTransGen.head
      ⟨sharesNode_symm hbc.1, chainConn_mem ha hab⟩ ih

lemma disconnected_iff {l₁ l₂ : List Branch} :
    are_branchsets_disconnected l₁ l₂ = true ↔
      ∀ x ∈ branchNodes l₁, x ∉ branchNodes l₂ := by
  unfold are_branchsets_disconnected
  rw [decide_eq_true_iff]

lemma mem_branchNodes {bs : List Branch} {x : ℕ} :
    x ∈ branchNodes bs ↔ ∃ b ∈ bs, x = b.n0 ∨ x = b.n1 := by
  unfold branchNodes
  constructor
  · intro h
    rw [List.mem_flatMap] at h
    obtain ⟨b, hb, hx⟩ := h
    exact ⟨b, hb, by simpa using hx⟩
  · rintro ⟨b, hb, hx⟩
    rw [List.mem_flatMap]
    exact ⟨b, hb, by simpa using hx⟩

lemma sharesNode_of_common {b₁ b₂ : Branch} {x : ℕ}
    (h₁ : x = b₁.n0 ∨ x = b₁.n1) (h₂ : x = b₂.n0 ∨ x = b₂.n1) :
    sharesNode b₁ b₂ := by
  unfold sharesNode
  rcases h₁ with h | h <;> rcases h₂ with h' | h' <;> rw [h] at h' <;> tauto

lemma sharesNode_common {b₁ b₂ : Branch} (h : sharesNode b₁ b₂) :
    ∃ x, (x = b₁.n0 ∨ x = b₁.n1) ∧ (x = b₂.n0 ∨ x = b₂.n1) := by
  unfold sharesNode at h
  rcases h with h | h | h | h
  · exact ⟨b₁.n0, Or.inl rfl, Or.inl h⟩
  · exact ⟨b₁.n0, Or.inl rfl, Or.inr h⟩
  · exact ⟨b₁.n1, Or.inr rfl, Or.inl h⟩
  · exact ⟨b₁.n1, Or.inr rfl, Or.inr h⟩

lemma perm_eraseIdx_getElem : ∀ (l : List Branch) (i : ℕ) (b : Branch),
    l[i]? = some b → l.Perm (b :: l.eraseIdx i) := by
  intro l
  induction l with
  | nil => intro i b h; cases h
  | cons x t ih =>
    intro i b h
    cases i with
    | zero =>
      rw [List.getElem?_cons_zero] at h
      injection h with h'
      subst h'
      exact List.Perm.refl _
    | succ i =>
      rw [List.getElem?_cons_succ] at h
      rw [List.eraseIdx_cons_succ]
      exact ((ih i b h).cons x).trans (List.Perm.swap b x _)

lemma forPass_prefix : ∀ (fuel i : ℕ) (rem sub : List Branch),
    ∃ moved, (forPass fuel i rem sub).2 = sub ++ moved := by
  intro fuel
  induction fuel with
  | zero => intro i rem sub; exact ⟨[], (List.append_nil sub).symm⟩
  | succ fuel ih =>
    intro i rem sub
    simp only [forPass]
    cases hb : rem[i]? with
    | none => exact ⟨[], (List.append_nil sub).symm⟩
    | some b₁ =>
      dsimp only
      split
      · obtain ⟨mv, hmv⟩ := ih i (rem.eraseIdx i) (sub ++ [b₁])
        refine ⟨b₁ :: mv, ?_⟩
        rw [hmv, List.append_assoc]
        rfl
      · exact ih (i + 1) rem sub

lemma forPass_perm : ∀ (fuel i : ℕ) (rem sub : List Branch),
    ((forPass fuel i rem sub).1 ++ (forPass fuel i rem sub).2).Perm
      (rem ++ sub) := by
  intro fuel
  induction fuel with
  | zero => intro i rem sub; exact List.Perm.refl _
  | succ fuel ih =>
    intro i rem sub
    simp only [forPass]
    cases hb : rem[i]? with
    | none => exact List.Perm.refl _
    | some b₁ =>
      dsimp only
      split
      · refine (ih i (rem.eraseIdx i) (sub ++ [b₁])).trans ?_
        have h1 : rem.Perm (b₁ :: rem.eraseIdx i) := perm_eraseIdx_getElem _ _ _ hb
        have h2 : (rem.eraseIdx i ++ (sub ++ [b₁])).Perm
            ((rem.eraseIdx i ++ [b₁]) ++ sub) := by
          rw [List.append_assoc]
          exact List.Perm.append_left _ List.perm_append_comm
        have h3 : ((rem.eraseIdx i ++ [b₁]) ++ sub).Perm
            ((b₁ :: rem.eraseIdx i) ++ sub) :=
          List.Perm.append_right _ List.perm_append_comm
        have h4 : ((b₁ :: rem.eraseIdx i) ++ sub).Perm (rem ++ sub) :=
          List.Perm.append_right _ h1.symm
        exact (h2.trans h3).trans h4
      · exact ih (i + 1) rem sub

lemma forPass_conn (bs : List Branch) (b₀ : Branch)
    (hns : ∀ b ∈ bs, b.n0 ≠ b.n1) :
    ∀ (fuel i : ℕ) (rem sub : List Branch),
      (∀ b ∈ rem, b ∈ bs) →
      (∀ b ∈ sub, b ∈ bs ∧ chainConn bs b₀ b) →
      ∀ b ∈ (forPass fuel i rem sub).2, b ∈ bs ∧ chainConn bs b₀ b := by
  intro fuel
  induction fuel with
  | zero => intro i rem sub _ hsub b hb; exact hsub b hb
  | succ fuel ih =>
    intro i rem sub hrem hsub
    simp only [forPass]
    cases hb : rem[i]? with
    | none => exact hsub
    | some b₁ =>
      dsimp only
      split
      · next hconn =>
        rw [List.any_eq_true] at hconn
        obtain ⟨b₂, hb₂sub, hcb⟩ := hconn
        have hb₁bs : b₁ ∈ bs := hrem b₁ (List.getElem?_mem hb)
        have hb₂ := hsub b₂ hb₂sub
        have hshare : sharesNode b₁ b₂ :=
          is_connected_of_not_shorted b₁ b₂ (hns _ hb₁bs) (hns _ hb₂.1) hcb
        refine ih i (rem.eraseIdx i) (sub ++ [b₁])
          (fun b hbm => hrem b (List.eraseIdx_subset _ _ hbm)) ?_
        intro b hbm
        rcases List.mem_append.mp hbm with h | h
        · exact hsub b h
        · rw [List.mem_singleton.mp h]
          exact ⟨hb₁bs, Relation.ReflTransGen.tail hb₂.2
            ⟨sharesNode_symm hshare, hb₁bs⟩⟩
      · exact ih (i + 1) rem sub hrem hsub

lemma forPass_length_le : ∀ (fuel i : ℕ) (rem sub : List Branch),
    (forPass fuel i rem sub).1.length ≤ rem.length := by
  intro fuel
  induction fuel with
  | zero => intro i rem sub; exact le_rfl
  | succ fuel ih =>
    intro i rem sub
    simp only [forPass]
    cases hb : rem[i]? with
    | none => exact le_rfl
    | some b₁ =>
      dsimp only
      split
      · refine le_trans (ih i (rem.eraseIdx i) (sub ++ [b₁])) ?_
        rw [List.length_eraseIdx]
        have : i < rem.length := by
          by_contra hlt
          rw [List.getElem?_eq_none (by omega)] at hb
          cases hb
        rw [if_pos this]
        omega
      · exact ih (i + 1) rem sub

lemma forPass_progress : ∀ (fuel i : ℕ) (rem sub : List Branch) (j : ℕ)
    (b : Branch), i ≤ j → rem[j]? = some b → j + 1 - i ≤ fuel →
    sub.any (fun b₂ => b.is_connected b₂) = true →
    (forPass fuel i rem sub).1.length < rem.length := by
  intro fuel
  induction fuel with
  | zero =>
    intro i rem sub j b hij hj hfuel hconn
    omega
  | succ fuel ih =>
    intro i rem sub j b hij hj hfuel hconn
    have hjlt : j < rem.length := by
      by_contra hlt
      rw [List.getElem?_eq_none (by omega)] at hj
      cases hj
    have hilt : i < rem.length := by omega
    simp only [forPass]
    cases hb : rem[i]? with
    | none =>
      rw [List.getElem?_eq_none_iff] at hb
      omega
    | some b₁ =>
      dsimp only
      split
      · have h1 := forPass_length_le fuel i (rem.eraseIdx i) (sub ++ [b₁])
        rw [List.length_eraseIdx, if_pos hilt] at h1
        omega
      · next hfail =>
        have hij' : i + 1 ≤ j := by
          rcases Nat.lt_or_ge i j with h | h
          · omega
          · have hieq : i = j := by omega
            subst hieq
            rw [hj] at hb
            injection hb with hb'
            subst hb'
            exact absurd hconn hfail
        exact ih (i + 1) rem sub j b hij' hj (by omega) hconn

lemma componentLoop_prefix : ∀ (fuel : ℕ) (rem sub : List Branch),
    ∃ moved, (componentLoop fuel rem sub).1 = sub ++ moved := by
  intro fuel
  induction fuel with
  | zero => intro rem sub; exact ⟨[], (List.append_nil sub).symm⟩
  | succ fuel ih =>
    intro rem sub
    simp only [componentLoop]
    split
    · exact ⟨[], (List.append_nil sub).symm⟩
    · cases hfp : forPass (2 * rem.length + 1) 0 rem sub with
      | mk rem' sub' =>
        dsimp only
        obtain ⟨mv1, hmv1⟩ := forPass_prefix (2 * rem.length + 1) 0 rem sub
        rw [hfp] at hmv1
        have hmv1' : sub' = sub ++ mv1 := hmv1
        obtain ⟨mv2, hmv2⟩ := ih rem' sub'
        refine ⟨mv1 ++ mv2, ?_⟩
        rw [hmv2, hmv1', List.append_assoc]

lemma componentLoop_perm : ∀ (fuel : ℕ) (rem sub : List Branch),
    ((componentLoop fuel rem sub).2 ++ (componentLoop fuel rem sub).1).Perm
      (rem ++ sub) := by
  intro fuel
  induction fuel with
  | zero => intro rem sub; exact List.Perm.refl _
  | succ fuel ih =>
    intro rem sub
    simp only [componentLoop]
    split
    · exact List.Perm.refl _
    · cases hfp : forPass (2 * rem.length + 1) 0 rem sub with
      | mk rem' sub' =>
        dsimp only
        have hperm := forPass_perm (2 * rem.length + 1) 0 rem sub
        rw [hfp] at hperm
        have hperm' : (rem' ++ sub').Perm (rem ++ sub) := hperm
        exact (ih rem' sub').trans hperm'

lemma componentLoop_conn (bs : List Branch) (b₀ : Branch)
    (hns : ∀ b ∈ bs, b.n0 ≠ b.n1) :
    ∀ (fuel : ℕ) (rem sub : List Branch),
      (∀ b ∈ rem, b ∈ bs) → (∀ b ∈ sub, b ∈ bs ∧ chainConn bs b₀ b) →
      ∀ b ∈ (componentLoop fuel rem sub).1, b ∈ bs ∧ chainConn bs b₀ b := by
  intro fuel
  induction fuel with
  | zero => intro rem sub _ hsub; exact hsub
  | succ fuel ih =>
    intro rem sub hrem hsub
    simp only [componentLoop]
    split
    · exact hsub
    · cases hfp : forPass (2 * rem.length + 1) 0 rem sub with
      | mk rem' sub' =>
        dsimp only
        have hconn := forPass_conn bs b₀ hns (2 * rem.length + 1) 0 rem sub
          hrem hsub
        rw [hfp] at hconn
        have hconn' : ∀ b ∈ sub', b ∈ bs ∧ chainConn bs b₀ b := hconn
        have hperm := forPass_perm (2 * rem.length + 1) 0 rem sub
        rw [hfp] at hperm
        have hperm' : (rem' ++ sub').Perm (rem ++ sub) := hperm
        refine ih rem' sub' ?_ hconn'
        intro b hb
        have : b ∈ rem ++ sub := hperm'.mem_iff.mp (List.mem_append.mpr (Or.inl hb))
        rcases List.mem_append.mp this with h | h
        · exact hrem b h
        · exact (hsub b h).1

lemma componentLoop_exit : ∀ (fuel : ℕ) (rem sub : List Branch),
    rem.length < fuel →
    are_branchsets_disconnected (componentLoop fuel rem sub).1
      (componentLoop fuel rem sub).2 = true := by
  intro fuel
  induction fuel with
  | zero => intro rem sub h; omega
  | succ fuel ih =>
    intro rem sub hlen
    simp only [componentLoop]
    split
    · next hd => exact hd
    · next hd =>
      cases hfp : forPass (2 * rem.length + 1) 0 rem sub with
      | mk rem' sub' =>
        dsimp only
        have hprog : rem'.length < rem.length := by
          have hnd : ¬(∀ x ∈ branchNodes sub, x ∉ branchNodes rem) := by
            intro hq
            exact hd (disconnected_iff.mpr hq)
          push_neg at hnd
          obtain ⟨x, hxs, hxr⟩ := hnd
          rw [mem_branchNodes] at hxs hxr
          obtain ⟨a, has, hax⟩ := hxs
          obtain ⟨bR, hbr, hbx⟩ := hxr
          obtain ⟨j, hjlt, hjeq⟩ := List.mem_iff_getElem.mp hbr
          have hshare : sharesNode bR a := sharesNode_of_common hbx hax
          have hany : sub.any (fun b₂ => bR.is_connected b₂) = true := by
            rw [List.any_eq_true]
            exact ⟨a, has, sharesNode_is_connected _ _ hshare⟩
          have hpr := forPass_progress (2 * rem.length + 1) 0 rem sub j bR
            (Nat.zero_le j) (by rw [List.getElem?_eq_getElem hjlt, hjeq])
            (by omega) hany
          rw [hfp] at hpr
          exact hpr
        exact ih rem' sub' (by omega)

lemma mcs_spec : ∀ (fuel : ℕ) (bs : List Branch),
    bs.length < fuel → (∀ b ∈ bs, b.n0 ≠ b.n1) →
    ((maxConnectedSubgraphs fuel bs).flatten.Perm bs) ∧
    (∀ C ∈ maxConnectedSubgraphs fuel bs, C ≠ []) ∧
    (∀ C ∈ maxConnectedSubgraphs fuel bs, ∀ a ∈ C, ∀ b ∈ C,
      chainConn bs a b) ∧
    (∀ C ∈ maxConnectedSubgraphs fuel bs, ∀ a ∈ C, ∀ z ∈ bs,
      chainConn bs a z → z ∈ C) := by
  intro fuel
  induction fuel with
  | zero => intro bs h; omega
  | succ fuel ih =>
    intro bs hlen hns
    cases bs with
    | nil =>
      refine ⟨List.Perm.refl _, ?_, ?_, ?_⟩
      · intro C hC; cases hC
      · intro C hC; cases hC
      · intro C hC; cases hC
    | cons b₀ rest =>
      simp only [maxConnectedSubgraphs]
      cases hcl : componentLoop (rest.length + 1) rest [b₀] with
      | mk sub rem =>
        dsimp only
        have hperm0 := componentLoop_perm (rest.length + 1) rest [b₀]
        rw [hcl] at hperm0
        have hperm0' : (rem ++ sub).Perm (rest ++ [b₀]) := hperm0
        have hexit := componentLoop_exit (rest.length + 1) rest [b₀]
          (Nat.lt_succ_self _)
        rw [hcl] at hexit
        have hexit' : are_branchsets_disconnected sub rem = true := hexit
        obtain ⟨moved, hpre⟩ := componentLoop_prefix (rest.length + 1) rest [b₀]
        rw [hcl] at hpre
        have hpre' : sub = [b₀] ++ moved := hpre
        have hconn := componentLoop_conn (b₀ :: rest) b₀ hns
          (rest.length + 1) rest [b₀]
          (fun b hb => List.mem_cons_of_mem b₀ hb)
          (by intro b hb
              rw [List.mem_singleton.mp hb]
              exact ⟨List.mem_cons_self _ _, Relation.ReflTransGen.refl⟩)
        rw [hcl] at hconn
        have hconn' : ∀ b ∈ sub, b ∈ b₀ :: rest ∧ chainConn (b₀ :: rest) b₀ b :=
          hconn
        have hsplit : ∀ z : Branch, z ∈ b₀ :: rest ↔ z ∈ sub ∨ z ∈ rem := by
          intro z
          constructor
          · intro hz
            have : z ∈ rest ++ [b₀] :=
              (List.perm_append_singleton b₀ rest).symm.mem_iff.mp hz
            have : z ∈ rem ++ sub := hperm0'.symm.mem_iff.mp this
            rcases List.mem_append.mp this with h | h
            · exact Or.inr h
            · exact Or.inl h
          · intro hz
            have : z ∈ rem ++ sub := by
              rcases hz with h | h
              · exact List.mem_append.mpr (Or.inr h)
              · exact List.mem_append.mpr (Or.inl h)
            have := hperm0'.mem_iff.mp this
            exact (List.perm_append_singleton b₀ rest).mem_iff.mp this
        have hdisj : ∀ x ∈ branchNodes sub, x ∉ branchNodes rem :=
          disconnected_iff.mp hexit'
        have confineSub : ∀ a ∈ sub, ∀ z, chainConn (b₀ :: rest) a z →
            z ∈ sub := by
          intro a ha z hchain
          induction hchain with
          | refl => exact ha
          | tail hxy hstep ihz =>
            rcases (hsplit _).mp hstep.2 with h | h
            · exact h
            · exfalso
              obtain ⟨x, hx1, hx2⟩ := sharesNode_common hstep.1
              exact hdisj x (mem_branchNodes.mpr ⟨_, ihz, hx1⟩)
                (mem_branchNodes.mpr ⟨_, h, hx2⟩)
        have confineRem : ∀ a ∈ rem, ∀ z, chainConn (b₀ :: rest) a z →
            z ∈ rem ∧ chainConn rem a z := by
          intro a ha z hchain
          induction hchain with
          | refl => exact ⟨ha, Relation.ReflTransGen.refl⟩
          | tail hxy hstep ihz =>
            rcases (hsplit _).mp hstep.2 with h | h
            · exfalso
              obtain ⟨x, hx1, hx2⟩ := sharesNode_common hstep.1
              exact hdisj x (mem_branchNodes.mpr ⟨_, h, hx2⟩)
                (mem_branchNodes.mpr ⟨_, ihz.1, hx1⟩)
            · exact ⟨h, Relation.ReflTransGen.tail ihz.2 ⟨hstep.1, h⟩⟩
        have hsubne : sub ≠ [] := by
          rw [hpre']
          exact List.cons_ne_nil _ _
        have hremlen : rem.length < fuel := by
          have h1 : rem.length + sub.length = rest.length + 1 := by
            have := hperm0'.length_eq
            rw [List.length_append, List.length_append] at this
            simpa using this
          have h2 : 1 ≤ sub.length := by
            rw [hpre']
            simp
          rw [List.length_cons] at hlen
          omega
        have hns_rem : ∀ b ∈ rem, b.n0 ≠ b.n1 := fun b hb =>
          hns b ((hsplit b).mpr (Or.inr hb))
        obtain ⟨ihj, ihne, ihc, ihcomp⟩ := ih rem hremlen hns_rem
        have hremsub : ∀ b ∈ rem, b ∈ b₀ :: rest := fun b hb =>
          (hsplit b).mpr (Or.inr hb)
        refine ⟨?_, ?_, ?_, ?_⟩
        · rw [List.flatten_cons]
          refine (List.Perm.append_left sub ihj).trans ?_
          refine List.perm_append_comm.trans ?_
          exact hperm0'.trans (List.perm_append_singleton b₀ rest)
        · intro C hC
          rcases List.mem_cons.mp hC with h | h
          · rw [h]
            exact hsubne
          · exact ihne C h
        · intro C hC a ha b hb
          rcases List.mem_cons.mp hC with h | h
          · subst h
            have hroot_a := (hconn' a ha).2
            have hroot_b := (hconn' b hb).2
            exact Relation.ReflTransGen.trans
              (chainConn_symm (List.mem_cons_self _ _) hroot_a) hroot_b
          · exact chainConn_mono hremsub (ihc C h a ha b hb)
        · intro C hC a ha z hz hchain
          rcases List.mem_cons.mp hC with h | h
          · subst h
            exact confineSub a ha z hchain
          · have harem : a ∈ rem :=
              ihj.mem_iff.mp (List.mem_flatten_of_mem h ha)
            obtain ⟨hzrem, hzc⟩ := confineRem a harem z hchain
            exact ihcomp C h a ha z hzrem hzc

lemma mcs_node_disjoint (fuel : ℕ) (bs : List Branch)
    (hlen : bs.length < fuel) (hns : ∀ b ∈ bs, b.n0 ≠ b.n1)
    (hnd : bs.Nodup) :
    (maxConnectedSubgraphs fuel bs).Pairwise
      (fun C D => ∀ x ∈ branchNodes C, x ∉ branchNodes D) := by
  obtain ⟨hj, hne, hc, hcomp⟩ := mcs_spec fuel bs hlen hns
  have hfl : (maxConnectedSubgraphs fuel bs).flatten.Nodup :=
    hj.nodup_iff.mpr hnd
  have hpw : (maxConnectedSubgraphs fuel bs).Pairwise List.Disjoint :=
    (List.nodup_flatten.mp hfl).2
  refine hpw.imp_of_mem ?_
  intro C D hC hD hCD x hxC hxD
  rw [mem_branchNodes] at hxC hxD
  obtain ⟨b, hbC, hbx⟩ := hxC
  obtain ⟨b', hb'D, hb'x⟩ := hxD
  have hb'bs : b' ∈ bs := hj.mem_iff.mp (List.mem_flatten_of_mem hD hb'D)
  have hchain : chainConn bs b b' :=
    Relation.ReflTransGen.single ⟨sharesNode_of_common hbx hb'x, hb'bs⟩
  have hb'C : b' ∈ C := hcomp C hC b hbC b' hb'bs hchain
  exact hCD hb'C hb'D

lemma snd_mem_enumFrom : ∀ (t : List (List Branch)) (k : ℕ)
    (p : ℕ × List Branch), p ∈ List.enumFrom k t → p.2 ∈ t := by
  intro t
  induction t with
  | nil => intro k p h; cases h
  | cons a t ih =>
    intro k p h
    rcases List.mem_cons.mp h with h | h
    · rw [h]
      exact List.mem_cons_self _ _
    · exact List.mem_cons_of_mem _ (ih (k + 1) p h)

lemma enum_filter_unique (x : ℕ) :
    ∀ (L : List (List Branch)) (k idx : ℕ) (C : List Branch),
      L.Pairwise (fun C D => ∀ y ∈ branchNodes C, y ∉ branchNodes D) →
      L[idx]? = some C → x ∈ branchNodes C →
      (List.enumFrom k L).filter (fun p => decide (x ∈ branchNodes p.2)) =
        [(k + idx, C)] := by
  intro L
  induction L with
  | nil => intro k idx C _ h; cases h
  | cons C₀ t ih =>
    intro k idx C hpw hidx hx
    rw [show List.enumFrom k (C₀ :: t) = (k, C₀) :: List.enumFrom (k + 1) t
      from rfl, List.filter_cons]
    cases idx with
    | zero =>
      rw [List.getElem?_cons_zero] at hidx
      injection hidx with h'
      subst h'
      rw [if_pos (by simpa using hx)]
      have htail : (List.enumFrom (k + 1) t).filter
          (fun p => decide (x ∈ branchNodes p.2)) = [] := by
        rw [List.filter_eq_nil_iff]
        intro p hp
        have hp2 : p.2 ∈ t := snd_mem_enumFrom t (k + 1) p hp
        have := (List.pairwise_cons.mp hpw).1 p.2 hp2
        simpa using this x hx
      rw [htail, Nat.add_zero]
    | succ j =>
      rw [List.getElem?_cons_succ] at hidx
      have hCt : C ∈ t := List.getElem?_mem hidx
      have hxC₀ : x ∉ branchNodes C₀ := by
        intro hx0
        exact (List.pairwise_cons.mp hpw).1 C hCt x hx0 hx
      rw [if_neg (by simpa using hxC₀)]
      rw [ih (k + 1) j C (List.pairwise_cons.mp hpw).2 hidx hx]
      have : k + 1 + j = k + (j + 1) := by omega
      rw [this]

lemma nodeMarker_zero (comps : List (List Branch)) (x : ℕ)
    (hx : ∀ C ∈ comps, x ∉ branchNodes C) : nodeMarker comps x = 0 := by
  unfold nodeMarker
  have hfil : comps.enum.filter (fun p => decide (x ∈ branchNodes p.2)) = [] := by
    rw [List.filter_eq_nil_iff]
    intro p hp
    have hp2 : p.2 ∈ comps :=
      snd_mem_enumFrom comps 0 p hp
    simpa using hx p.2 hp2
  rw [hfil]
  rfl

lemma nodeMarker_spec (comps : List (List Branch))
    (hpw : comps.Pairwise
      (fun C D => ∀ y ∈ branchNodes C, y ∉ branchNodes D))
    (x : ℕ) (idx : ℕ) (C : List Branch)
    (hidx : comps[idx]? = some C) (hx : x ∈ branchNodes C) :
    nodeMarker comps x =
      if 0 ∈ branchNodes C then -1 else (idx : ℤ) + 1 := by
  unfold nodeMarker
  rw [show comps.enum = List.enumFrom 0 comps from rfl,
    enum_filter_unique x comps 0 idx C hpw hidx hx]
  rw [List.getLast?_singleton]
  rw [show (0 + idx, C) = (idx, C) from by rw [Nat.zero_add]]

lemma markerOf_cases (comps : List (List Branch))
    (hpw : comps.Pairwise
      (fun C D => ∀ y ∈ branchNodes C, y ∉ branchNodes D)) (y : ℕ) :
    (nodeMarker comps y = 0 ∧ ∀ C ∈ comps, y ∉ branchNodes C) ∨
    (∃ (idx : ℕ) (C : List Branch), comps[idx]? = some C ∧
      y ∈ branchNodes C ∧
      nodeMarker comps y =
        (if 0 ∈ branchNodes C then -1 else (idx : ℤ) + 1)) := by
  by_cases hcov : ∃ C ∈ comps, y ∈ branchNodes C
  · obtain ⟨C, hC, hyC⟩ := hcov
    obtain ⟨idx, hlt, heq⟩ := List.mem_iff_getElem.mp hC
    refine Or.inr ⟨idx, C, ?_, hyC, ?_⟩
    · rw [List.getElem?_eq_getElem hlt, heq]
    · exact nodeMarker_spec comps hpw y idx C
        (by rw [List.getElem?_eq_getElem hlt, heq]) hyC
  · push_neg at hcov
    exact Or.inl ⟨nodeMarker_zero comps y hcov, hcov⟩

lemma nodeMarker_eq_zero_iff (comps : List (List Branch))
    (hpw : comps.Pairwise
      (fun C D => ∀ y ∈ branchNodes C, y ∉ branchNodes D)) (y : ℕ) :
    nodeMarker comps y = 0 ↔ ∀ C ∈ comps, y ∉ branchNodes C := by
  constructor
  · intro h0
    rcases markerOf_cases comps hpw y with ⟨_, hunc⟩ |
      ⟨idx, C, hidx, hyC, hval⟩
    · exact hunc
    · rw [hval] at h0
      split at h0 <;> omega
  · exact nodeMarker_zero comps y

lemma nodeMarker_pos_iff (comps : List (List Branch))
    (hpw : comps.Pairwise
      (fun C D => ∀ y ∈ branchNodes C, y ∉ branchNodes D))
    (idx : ℕ) (C : List Branch) (hidx : comps[idx]? = some C)
    (hg : 0 ∉ branchNodes C) (y : ℕ) :
    nodeMarker comps y = (idx : ℤ) + 1 ↔ y ∈ branchNodes C := by
  constructor
  · intro h
    rcases markerOf_cases comps hpw y with ⟨h0, _⟩ |
      ⟨jdx, D, hjdx, hyD, hval⟩
    · rw [h0] at h
      omega
    · rw [hval] at h
      split at h
      · omega
      · have hje : jdx = idx := by omega
        subst hje
        rw [hidx] at hjdx
        injection hjdx with h'
        subst h'
        exact hyD
  · intro h
    rw [nodeMarker_spec comps hpw y idx C hidx h, if_neg hg]

lemma covered_mono {l₁ l₂ : List Branch} {comps₁ comps₂ : List (List Branch)}
    (hj₁ : comps₁.flatten.Perm l₁) (hj₂ : comps₂.flatten.Perm l₂)
    (hmem : ∀ b : Branch, b ∈ l₁ → b ∈ l₂) (y : ℕ)
    (h : ∃ C ∈ comps₁, y ∈ branchNodes C) :
    ∃ C ∈ comps₂, y ∈ branchNodes C := by
  obtain ⟨C, hC, hyC⟩ := h
  rw [mem_branchNodes] at hyC
  obtain ⟨b, hbC, hbx⟩ := hyC
  have hbl₂ : b ∈ l₂ :=
    hmem b (hj₁.mem_iff.mp (List.mem_flatten_of_mem hC hbC))
  obtain ⟨D, hD, hbD⟩ := List.mem_flatten.mp (hj₂.mem_iff.mpr hbl₂)
  exact ⟨D, hD, mem_branchNodes.mpr ⟨b, hbD, hbx⟩⟩

lemma marker_corr (l₁ l₂ : List Branch) (hperm : l₁.Perm l₂)
    (hnodup : l₁.Nodup) (hns : ∀ b ∈ l₁, b.n0 ≠ b.n1) (m : ℤ) (hm : m ≠ -1)
    (y₀ : ℕ)
    (hy₀ : nodeMarker (maxConnectedSubgraphs (l₁.length + 1) l₁) y₀ = m) :
    nodeMarker (maxConnectedSubgraphs (l₂.length + 1) l₂) y₀ ≠ -1 ∧
    ∀ y, nodeMarker (maxConnectedSubgraphs (l₁.length + 1) l₁) y = m ↔
      nodeMarker (maxConnectedSubgraphs (l₂.length + 1) l₂) y =
        nodeMarker (maxConnectedSubgraphs (l₂.length + 1) l₂) y₀ := by
  have hns₂ : ∀ b ∈ l₂, b.n0 ≠ b.n1 := fun b hb => hns b (hperm.mem_iff.mpr hb)
  have hnd₂ : l₂.Nodup := hperm.nodup_iff.mp hnodup
  obtain ⟨hj₁, hne₁, hc₁, hcomp₁⟩ :=
    mcs_spec (l₁.length + 1) l₁ (Nat.lt_succ_self _) hns
  obtain ⟨hj₂, hne₂, hc₂, hcomp₂⟩ :=
    mcs_spec (l₂.length + 1) l₂ (Nat.lt_succ_self _) hns₂
  have hpw₁ := mcs_node_disjoint (l₁.length + 1) l₁ (Nat.lt_succ_self _)
    hns hnodup
  have hpw₂ := mcs_node_disjoint (l₂.length + 1) l₂ (Nat.lt_succ_self _)
    hns₂ hnd₂
  set comps₁ := maxConnectedSubgraphs (l₁.length + 1) l₁
  set comps₂ := maxConnectedSubgraphs (l₂.length + 1) l₂
  have hmem₁₂ : ∀ b : Branch, b ∈ l₁ → b ∈ l₂ := fun b hb =>
    hperm.mem_iff.mp hb
  have hmem₂₁ : ∀ b : Branch, b ∈ l₂ → b ∈ l₁ := fun b hb =>
    hperm.mem_iff.mpr hb
  have huncov_iff : ∀ y, (∀ C ∈ comps₁, y ∉ branchNodes C) ↔
      (∀ C ∈ comps₂, y ∉ branchNodes C) := by
    intro y
    constructor
    · intro h C hC hyC
      obtain ⟨D, hD, hyD⟩ := covered_mono hj₂ hj₁ hmem₂₁ y ⟨C, hC, hyC⟩
      exact h D hD hyD
    · intro h C hC hyC
      obtain ⟨D, hD, hyD⟩ := covered_mono hj₁ hj₂ hmem₁₂ y ⟨C, hC, hyC⟩
      exact h D hD hyD
  rcases markerOf_cases comps₁ hpw₁ y₀ with ⟨h0, hunc⟩ |
    ⟨idx₁, C₁, hidx₁, hy₀C₁, hval₁⟩
  · have hm0 : m = 0 := by rw [← hy₀, h0]
    subst hm0
    have h0' : nodeMarker comps₂ y₀ = 0 :=
      (nodeMarker_eq_zero_iff comps₂ hpw₂ y₀).mpr
        ((huncov_iff y₀).mp hunc)
    refine ⟨by omega, ?_⟩
    intro y
    rw [h0', nodeMarker_eq_zero_iff comps₁ hpw₁ y,
      nodeMarker_eq_zero_iff comps₂ hpw₂ y]
    exact huncov_iff y
  · have hC₁mem : C₁ ∈ comps₁ := List.getElem?_mem hidx₁
    have hground : (0 : ℕ) ∉ branchNodes C₁ := by
      intro hg
      rw [hval₁, if_pos hg] at hy₀
      exact hm hy₀.symm
    have hmval : m = (idx₁ : ℤ) + 1 := by
      rw [← hy₀, hval₁, if_neg hground]
    obtain ⟨b, hbC₁, hbx⟩ := mem_branchNodes.mp hy₀C₁
    have hbl₁ : b ∈ l₁ := hj₁.mem_iff.mp (List.mem_flatten_of_mem hC₁mem hbC₁)
    have hbl₂ : b ∈ l₂ := hmem₁₂ b hbl₁
    obtain ⟨C₂, hC₂mem, hbC₂⟩ := List.mem_flatten.mp (hj₂.mem_iff.mpr hbl₂)
    obtain ⟨idx₂, hlt₂, heq₂⟩ := List.mem_iff_getElem.mp hC₂mem
    have hidx₂ : comps₂[idx₂]? = some C₂ := by
      rw [List.getElem?_eq_getElem hlt₂, heq₂]
    have hCC : ∀ z : Branch, z ∈ C₁ ↔ z ∈ C₂ := by
      intro z
      constructor
      · intro hz
        have hch₁ : chainConn l₁ b z := hc₁ C₁ hC₁mem b hbC₁ z hz
        have hch₂ : chainConn l₂ b z := chainConn_mono hmem₁₂ hch₁
        have hzl₂ : z ∈ l₂ := chainConn_mem hbl₂ hch₂
        exact hcomp₂ C₂ hC₂mem b hbC₂ z hzl₂ hch₂
      · intro hz
        have hch₂ : chainConn l₂ b z := hc₂ C₂ hC₂mem b hbC₂ z hz
        have hch₁ : chainConn l₁ b z := chainConn_mono hmem₂₁ hch₂
        have hzl₁ : z ∈ l₁ := chainConn_mem hbl₁ hch₁
        exact hcomp₁ C₁ hC₁mem b hbC₁ z hzl₁ hch₁
    have hbn : ∀ w : ℕ, w ∈ branchNodes C₁ ↔ w ∈ branchNodes C₂ := by
      intro w
      rw [mem_branchNodes, mem_branchNodes]
      constructor
      · rintro ⟨b', hb', hw⟩
        exact ⟨b', (hCC b').mp hb', hw⟩
      · rintro ⟨b', hb', hw⟩
        exact ⟨b', (hCC b').mpr hb', hw⟩
    have hg₂ : (0 : ℕ) ∉ branchNodes C₂ := fun h => hground ((hbn 0).mpr h)
    have hy₀C₂ : y₀ ∈ branchNodes C₂ := (hbn y₀).mp hy₀C₁
    have hm' : nodeMarker comps₂ y₀ = (idx₂ : ℤ) + 1 :=
      (nodeMarker_pos_iff comps₂ hpw₂ idx₂ C₂ hidx₂ hg₂ y₀).mpr hy₀C₂
    refine ⟨by omega, ?_⟩
    intro y
    rw [hm', hmval, nodeMarker_pos_iff comps₁ hpw₁ idx₁ C₁ hidx₁ hground y,
      nodeMarker_pos_iff comps₂ hpw₂ idx₂ C₂ hidx₂ hg₂ y]
    exact hbn y

/-- The connected-subgraph list as called by `_independent_modes`. -/
def mcsOf (l : List Branch) : List (List Branch) :=
  maxConnectedSubgraphs (l.length + 1) l

/-- The per-node marker list of `_independent_modes`. -/
def indicesOf (c : Circuit) (l : List Branch) : List ℤ :=
  (nodesCopy c).map (nodeMarker (mcsOf l))

/-- The connectivity-mode vectors of `_independent_modes` (before
single-node extension and ground-coordinate removal). -/
def basisOf (c : Circuit) (l : List Branch) (onv offv : ℚ) : List Vec :=
  ((uniqueMarkers (indicesOf c l)).filter (fun m => decide (m ≠ -1))).map
    (fun m => (indicesOf c l).map (fun i => if i = m then onv else offv))

lemma mem_uniqueMarkers {ind : List ℤ} {m : ℤ} :
    m ∈ uniqueMarkers ind ↔ m ∈ ind := by
  unfold uniqueMarkers
  rw [(List.perm_insertionSort _ _).mem_iff, List.mem_dedup]

lemma uniqueMarkers_nodup (ind : List ℤ) : (uniqueMarkers ind).Nodup := by
  unfold uniqueMarkers
  exact (List.perm_insertionSort _ _).nodup_iff.mpr (List.nodup_dedup ind)

lemma basisOf_nodup (c : Circuit) (l : List Branch) (onv offv : ℚ)
    (hoo : onv ≠ offv) : (basisOf c l onv offv).Nodup := by
  unfold basisOf
  refine List.Nodup.map_on ?_ ((uniqueMarkers_nodup _).filter _)
  intro m hm m' hm' hvec
  by_contra hne
  have hmind : m ∈ indicesOf c l :=
    mem_uniqueMarkers.mp (List.mem_filter.mp hm).1
  obtain ⟨k, hk, hkeq⟩ := List.mem_iff_getElem.mp hmind
  have h1 := congrArg (fun w : List ℚ => w[k]?) hvec
  simp only [List.getElem?_map, List.getElem?_eq_getElem hk] at h1
  rw [hkeq] at h1
  simp only [Option.map_some'] at h1
  simp [hne] at h1
  exact hoo h1

lemma basisOf_subset (c : Circuit) (l₁ l₂ : List Branch) (hperm : l₁.Perm l₂)
    (hnodup : l₁.Nodup) (hns : ∀ b ∈ l₁, b.n0 ≠ b.n1) (onv offv : ℚ) :
    ∀ v ∈ basisOf c l₁ onv offv, v ∈ basisOf c l₂ onv offv := by
  intro v hv
  unfold basisOf at hv ⊢
  rw [List.mem_map] at hv
  obtain ⟨m, hm_mem, rfl⟩ := hv
  rw [List.mem_filter] at hm_mem
  obtain ⟨hmU, hm1⟩ := hm_mem
  have hm1' : m ≠ -1 := of_decide_eq_true hm1
  have hmind : m ∈ indicesOf c l₁ := mem_uniqueMarkers.mp hmU
  obtain ⟨y₀, hy₀mem, hy₀⟩ := List.mem_map.mp hmind
  obtain ⟨hm'ne, hiff⟩ := marker_corr l₁ l₂ hperm hnodup hns m hm1' y₀ hy₀
  rw [List.mem_map]
  refine ⟨nodeMarker (mcsOf l₂) y₀, ?_, ?_⟩
  · rw [List.mem_filter]
    refine ⟨mem_uniqueMarkers.mpr ?_, decide_eq_true hm'ne⟩
    exact List.mem_map.mpr ⟨y₀, hy₀mem, rfl⟩
  · unfold indicesOf
    rw [List.map_map, List.map_map]
    refine List.map_congr_left ?_
    intro y _
    show (if nodeMarker (mcsOf l₂) y = nodeMarker (mcsOf l₂) y₀
        then onv else offv) =
      (if nodeMarker (mcsOf l₁) y = m then onv else offv)
    exact if_congr (hiff y).symm rfl rfl

lemma basisOf_perm (c : Circuit) (l₁ l₂ : List Branch) (hperm : l₁.Perm l₂)
    (hnodup : l₁.Nodup) (hns : ∀ b ∈ l₁, b.n0 ≠ b.n1) (onv offv : ℚ)
    (hoo : onv ≠ offv) :
    (basisOf c l₁ onv offv).Perm (basisOf c l₂ onv offv) := by
  have hns₂ : ∀ b ∈ l₂, b.n0 ≠ b.n1 := fun b hb => hns b (hperm.mem_iff.mpr hb)
  have hnd₂ : l₂.Nodup := hperm.nodup_iff.mp hnodup
  refine List.perm_of_nodup_nodup_toFinset_eq (basisOf_nodup c l₁ onv offv hoo)
    (basisOf_nodup c l₂ onv offv hoo) ?_
  ext v
  simp only [List.mem_toFinset]
  constructor
  · exact basisOf_subset c l₁ l₂ hperm hnodup hns onv offv v
  · exact basisOf_subset c l₂ l₁ hperm.symm hnd₂ hns₂ onv offv v

lemma marker_zero_pt (l₁ l₂ : List Branch) (hperm : l₁.Perm l₂)
    (hnodup : l₁.Nodup) (hns : ∀ b ∈ l₁, b.n0 ≠ b.n1) (y : ℕ) :
    nodeMarker (mcsOf l₁) y = 0 ↔ nodeMarker (mcsOf l₂) y = 0 := by
  have hns₂ : ∀ b ∈ l₂, b.n0 ≠ b.n1 := fun b hb => hns b (hperm.mem_iff.mpr hb)
  have hnd₂ : l₂.Nodup := hperm.nodup_iff.mp hnodup
  obtain ⟨hj₁, -, -, -⟩ := mcs_spec (l₁.length + 1) l₁ (Nat.lt_succ_self _) hns
  obtain ⟨hj₂, -, -, -⟩ :=
    mcs_spec (l₂.length + 1) l₂ (Nat.lt_succ_self _) hns₂
  have hpw₁ := mcs_node_disjoint (l₁.length + 1) l₁ (Nat.lt_succ_self _)
    hns hnodup
  have hpw₂ := mcs_node_disjoint (l₂.length + 1) l₂ (Nat.lt_succ_self _)
    hns₂ hnd₂
  rw [show mcsOf l₁ = maxConnectedSubgraphs (l₁.length + 1) l₁ from rfl,
    show mcsOf l₂ = maxConnectedSubgraphs (l₂.length + 1) l₂ from rfl,
    nodeMarker_eq_zero_iff _ hpw₁ y, nodeMarker_eq_zero_iff _ hpw₂ y]
  constructor
  · intro h C hC hyC
    obtain ⟨D, hD, hyD⟩ := covered_mono hj₂ hj₁
      (fun b hb => hperm.mem_iff.mpr hb) y ⟨C, hC, hyC⟩
    exact h D hD hyD
  · intro h C hC hyC
    obtain ⟨D, hD, hyD⟩ := covered_mono hj₁ hj₂
      (fun b hb => hperm.mem_iff.mp hb) y ⟨C, hC, hyC⟩
    exact h D hD hyD

lemma foldl_rank_perm (N : ℕ) :
    ∀ (modes acc₁ acc₂ : List Vec),
      acc₁.Perm acc₂ → (∀ r ∈ acc₁, r.length = N) →
      (∀ r ∈ modes, r.length = N) →
      (modes.foldl (fun acc mode =>
        if matrix_rank (acc ++ [mode]) = (acc ++ [mode]).length
        then acc ++ [mode] else acc) acc₁).Perm
      (modes.foldl (fun acc mode =>
        if matrix_rank (acc ++ [mode]) = (acc ++ [mode]).length
        then acc ++ [mode] else acc) acc₂) := by
  intro modes
  induction modes with
  | nil => intro acc₁ acc₂ h _ _; exact h
  | cons m ms ih =>
    intro acc₁ acc₂ hperm hlen₁ hlenm
    have hm : m.length = N := hlenm m (List.mem_cons_self _ _)
    have hmtail : ∀ r ∈ ms, r.length = N := fun r hr =>
      hlenm r (List.mem_cons_of_mem _ hr)
    have hlen₂ : ∀ r ∈ acc₂, r.length = N := fun r hr =>
      hlen₁ r (hperm.mem_iff.mpr hr)
    have hext₁ : ∀ r ∈ acc₁ ++ [m], r.length = N := by
      intro r hr
      rcases List.mem_append.mp hr with h | h
      · exact hlen₁ r h
      · rw [List.mem_singleton.mp h]; exact hm
    have hext₂ : ∀ r ∈ acc₂ ++ [m], r.length = N := by
      intro r hr
      rcases List.mem_append.mp hr with h | h
      · exact hlen₂ r h
      · rw [List.mem_singleton.mp h]; exact hm
    have hpm : (acc₁ ++ [m]).Perm (acc₂ ++ [m]) := hperm.append_right [m]
    have hcond : (matrix_rank (acc₁ ++ [m]) = (acc₁ ++ [m]).length) ↔
        (matrix_rank (acc₂ ++ [m]) = (acc₂ ++ [m]).length) := by
      rw [matrix_rank_eq_finrank (n := N) hext₁,
        matrix_rank_eq_finrank (n := N) hext₂,
        spanL_congr (fun r => hpm.mem_iff), hpm.length_eq]
    rw [List.foldl_cons, List.foldl_cons]
    by_cases hc : matrix_rank (acc₁ ++ [m]) = (acc₁ ++ [m]).length
    · rw [if_pos hc, if_pos (hcond.mp hc)]
      exact ih _ _ hpm hext₁ hmtail
    · rw [if_neg hc, if_neg (fun h => hc (hcond.mpr h))]
      exact ih _ _ hperm hlen₁ hmtail

/-- The reference vector of the single-node stage. -/
def refOf (c : Circuit) (l : List Branch) (onv offv : ℚ) : Vec :=
  (indicesOf c l).map (fun i => if i = 0 then onv else offv)

/-- The single-node candidate vectors. -/
def modesOf (c : Circuit) (l : List Branch) (onv offv : ℚ) : List Vec :=
  (((refOf c l onv offv).enum.filter (fun p => decide (p.2 = onv))).map
      (fun p => p.1)).map
    (fun pos => (List.range (indicesOf c l).length).map
      (fun x => if x = pos then onv else offv))

/-- The rank-guarded greedy extension of the basis. -/
def foldBasis (basis modes : List Vec) : List Vec :=
  modes.foldl (fun acc mode =>
    if matrix_rank (acc ++ [mode]) = (acc ++ [mode]).length
    then acc ++ [mode] else acc) basis

lemma independent_modes_eq (c : Circuit) (l : List Branch) (sn : Bool)
    (onv offv : ℚ) :
    independent_modes c l sn onv offv =
      (if c.isGrounded then
        (if sn then
          (if 0 < (indicesOf c l).count 0 then
            foldBasis (basisOf c l onv offv) (modesOf c l onv offv)
           else basisOf c l onv offv)
         else basisOf c l onv offv).map (fun v => v.dropLast)
       else
        (if sn then
          (if 0 < (indicesOf c l).count 0 then
            foldBasis (basisOf c l onv offv) (modesOf c l onv offv)
           else basisOf c l onv offv)
         else basisOf c l onv offv)) := rfl

lemma basisOf_length (c : Circuit) (l : List Branch) (onv offv : ℚ) :
    ∀ r ∈ basisOf c l onv offv, r.length = (nodesCopy c).length := by
  intro r hr
  unfold basisOf at hr
  rw [List.mem_map] at hr
  obtain ⟨m, -, rfl⟩ := hr
  unfold indicesOf
  rw [List.length_map, List.length_map]

lemma modesOf_length (c : Circuit) (l : List Branch) (onv offv : ℚ) :
    ∀ r ∈ modesOf c l onv offv, r.length = (nodesCopy c).length := by
  intro r hr
  unfold modesOf at hr
  rw [List.mem_map] at hr
  obtain ⟨pos, -, rfl⟩ := hr
  unfold indicesOf
  rw [List.length_map, List.length_range, List.length_map]

/-- C6 (amended): for a duplicate-free subset of non-shorted branches and
distinct on/off entry values, reordering the input branch subset changes the
emitted mode basis at most by a permutation of its vectors: the two results
are `List.Perm`-equivalent (exact equality fails, as the counterexample
shows, because the discovery order of the connected subgraphs follows the
input order). -/
theorem claim_C6 (c : Circuit) (l₁ l₂ : List Branch) (sn : Bool)
    (onv offv : ℚ) (hperm : l₁.Perm l₂) (hnodup : l₁.Nodup)
    (hns : ∀ b ∈ l₁, b.n0 ≠ b.n1) (hoo : onv ≠ offv) :
    (independent_modes c l₁ sn onv offv).Perm
      (independent_modes c l₂ sn onv offv) := by
  have hbasis := basisOf_perm c l₁ l₂ hperm hnodup hns onv offv hoo
  have hzero := marker_zero_pt l₁ l₂ hperm hnodup hns
  have hcount : (indicesOf c l₁).count 0 = (indicesOf c l₂).count 0 := by
    rw [List.count_eq_countP, List.count_eq_countP]
    unfold indicesOf
    rw [List.countP_map, List.countP_map]
    refine List.countP_congr ?_
    intro y _
    simp only [Function.comp_apply, beq_iff_eq]
    exact hzero y
  have href : refOf c l₁ onv offv = refOf c l₂ onv offv := by
    unfold refOf indicesOf
    rw [List.map_map, List.map_map]
    refine List.map_congr_left ?_
    intro y _
    exact if_congr (hzero y) rfl rfl
  have hlen_ind : (indicesOf c l₁).length = (indicesOf c l₂).length := by
    unfold indicesOf
    rw [List.length_map, List.length_map]
  have hmodes : modesOf c l₁ onv offv = modesOf c l₂ onv offv := by
    unfold modesOf
    rw [href, hlen_ind]
  have hfold : (foldBasis (basisOf c l₁ onv offv)
      (modesOf c l₁ onv offv)).Perm
      (foldBasis (basisOf c l₂ onv offv) (modesOf c l₂ onv offv)) := by
    rw [hmodes]
    unfold foldBasis
    exact foldl_rank_perm (nodesCopy c).length _ _ _ hbasis
      (basisOf_length c l₁ onv offv) (modesOf_length c l₂ onv offv)
  rw [independent_modes_eq c l₁ sn onv offv,
    independent_modes_eq c l₂ sn onv offv]
  have hcore : ((if sn then
      (if 0 < (indicesOf c l₁).count 0 then
        foldBasis (basisOf c l₁ onv offv) (modesOf c l₁ onv offv)
       else basisOf c l₁ onv offv)
     else basisOf c l₁ onv offv)).Perm
      ((if sn then
      (if 0 < (indicesOf c l₂).count 0 then
        foldBasis (basisOf c l₂ onv offv) (modesOf c l₂ onv offv)
       else basisOf c l₂ onv offv)
     else basisOf c l₂ onv offv)) := by
    by_cases hsn : sn = true
    · rw [if_pos hsn, if_pos hsn]
      by_cases hcnt : 0 < (indicesOf c l₁).count 0
      · rw [if_pos hcnt, if_pos (hcount ▸ hcnt)]
        exact hfold
      · rw [if_neg hcnt, if_neg (fun h => hcnt (by rw [hcount]; exact h))]
        exact hbasis
    · rw [if_neg hsn, if_neg hsn]
      exact hbasis
  by_cases hg : c.isGrounded = true
  · rw [if_pos hg, if_pos hg]
    exact hcore.map _
  · rw [if_neg hg, if_neg hg]
    exact hcore

/-- C6 witness: the amended Perm-invariance instantiated at the
two-inductor circuit of the counterexample. -/
theorem claim_C6_witness :
    (([c6a, c6b] : List Branch).Perm [c6b, c6a] ∧
      ([c6a, c6b] : List Branch).Nodup ∧
      (∀ b ∈ ([c6a, c6b] : List Branch), b.n0 ≠ b.n1) ∧ (1 : ℚ) ≠ 0) ∧
    (independent_modes c6circ [c6a, c6b] true 1 0).Perm
      (independent_modes c6circ [c6b, c6a] true 1 0) :=
  ⟨⟨by decide, by decide, by decide, by decide⟩,
    claim_C6 c6circ [c6a, c6b] [c6b, c6a] true 1 0 (by decide) (by decide)
      (by decide) (by decide)⟩

end SymCirc

